import Mathlib

/-!
Shallow embedding of the edge-detection / vectorization core of the
vectortrace repository (`src/utils/algo.ts`), together with theorems
settling the specification claims about it.

Modelling conventions:
* JS typed arrays become `List` values indexed with `List.getD _ 0`
  (typed arrays are zero-initialized; in-range reads coincide).
* JS numbers on the pixel path are modelled by `ℚ` (all operations used by
  the code on the relevant paths are exact decimal arithmetic and
  comparisons); the two transcendental operations `Math.sqrt` and
  `Math.atan2`, and the constant `180 / Math.PI`, are abstracted as
  parameters `sq`, `at2`, `r2d`, since every claim is independent of their
  values.
* The two worklist loops (hysteresis propagation and the greedy walk) are
  written with an explicit fuel argument, structurally recursive so that
  concrete runs evaluate inside the kernel; the top-level entry points pass
  a fuel that dominates the loop's decreasing measure (pops ≤ pushes ≤
  initial stack + one push per promoted / freshly visited cell), so the
  fuel never runs out on the calls the code performs.
-/

namespace VectorTrace

/-- Point from `src/types` (`{ x, y }`); integer pixel coordinates. -/
structure Point where
  x : Int
  y : Int
deriving DecidableEq, Repr

/-- ImageData as consumed by `cannyEdgeDetection`: width, height and the RGBA
byte buffer (`data`), one `ℕ` per 8-bit channel sample. -/
structure ImageData where
  width : ℕ
  height : ℕ
  data : List ℕ

/-- JS `Math.round`: round half towards positive infinity. -/
def jsRound (q : ℚ) : ℤ := ⌊q + 1/2⌋

/-- `toGrayscale` (algo.ts): `gray[i/4] = Math.round(0.299*R + 0.587*G + 0.114*B)`,
one output byte per RGBA quadruple, stored into a `Uint8Array` (mod 256;
the rounded luma of byte inputs is nonnegative). -/
def toGrayscale (data : List ℕ) : List ℕ :=
  (List.range (data.length / 4)).map fun j =>
    (jsRound ((299/1000 : ℚ) * (data.getD (4*j) 0 : ℚ)
      + (587/1000 : ℚ) * (data.getD (4*j+1) 0 : ℚ)
      + (114/1000 : ℚ) * (data.getD (4*j+2) 0 : ℚ))).toNat % 256

/-- `gaussianBlur` (algo.ts): 3×3 kernel `[1,2,1,2,4,2,1,2,1]/16` applied to
interior pixels `1 ≤ x < w-1`, `1 ≤ y < h-1`; the output array has the
input's length and all other cells stay zero. The kernel sum is unrolled. -/
def gaussianBlur (data : List ℚ) (w h : ℕ) : List ℚ :=
  (List.range data.length).map fun idx =>
    let y := idx / w
    let x := idx % w
    if 1 ≤ y ∧ y < h - 1 ∧ 1 ≤ x ∧ x < w - 1 then
      (data.getD ((y-1)*w + (x-1)) 0 * 1 + data.getD ((y-1)*w + x) 0 * 2
        + data.getD ((y-1)*w + (x+1)) 0 * 1
        + data.getD (y*w + (x-1)) 0 * 2 + data.getD (y*w + x) 0 * 4
        + data.getD (y*w + (x+1)) 0 * 2
        + data.getD ((y+1)*w + (x-1)) 0 * 1 + data.getD ((y+1)*w + x) 0 * 2
        + data.getD ((y+1)*w + (x+1)) 0 * 1) / 16
    else 0

/-- Sobel horizontal response at interior pixel `(x, y)` of `blurred`
(kernel `gx = [-1,0,1,-2,0,2,-1,0,1]`, unrolled). -/
def sobelX (blurred : List ℚ) (w x y : ℕ) : ℚ :=
  -blurred.getD ((y-1)*w + (x-1)) 0 + blurred.getD ((y-1)*w + (x+1)) 0
    - 2 * blurred.getD (y*w + (x-1)) 0 + 2 * blurred.getD (y*w + (x+1)) 0
    - blurred.getD ((y+1)*w + (x-1)) 0 + blurred.getD ((y+1)*w + (x+1)) 0

/-- Sobel vertical response at interior pixel `(x, y)` of `blurred`
(kernel `gy = [-1,-2,-1,0,0,0,1,2,1]`, unrolled). -/
def sobelY (blurred : List ℚ) (w x y : ℕ) : ℚ :=
  -blurred.getD ((y-1)*w + (x-1)) 0 - 2 * blurred.getD ((y-1)*w + x) 0
    - blurred.getD ((y-1)*w + (x+1)) 0
    + blurred.getD ((y+1)*w + (x-1)) 0 + 2 * blurred.getD ((y+1)*w + x) 0
    + blurred.getD ((y+1)*w + (x+1)) 0

/-- Gradient magnitude field of `cannyEdgeDetection` (step 1):
`magnitudes[y*w+x] = sqrt(sumX² + sumY²)` on interior pixels of a
`Float32Array(w*h)`; `sq` abstracts `Math.sqrt`. -/
def cannyMagnitudes (sq : ℚ → ℚ) (blurred : List ℚ) (w h : ℕ) : List ℚ :=
  (List.range (w * h)).map fun idx =>
    let y := idx / w
    let x := idx % w
    if 1 ≤ y ∧ y < h - 1 ∧ 1 ≤ x ∧ x < w - 1 then
      sq (sobelX blurred w x y * sobelX blurred w x y
        + sobelY blurred w x y * sobelY blurred w x y)
    else 0

/-- Gradient direction field of `cannyEdgeDetection` (step 1):
`directions[y*w+x] = atan2(sumY, sumX)` on interior pixels; `at2` abstracts
`Math.atan2`. -/
def cannyDirections (at2 : ℚ → ℚ → ℚ) (blurred : List ℚ) (w h : ℕ) : List ℚ :=
  (List.range (w * h)).map fun idx =>
    let y := idx / w
    let x := idx % w
    if 1 ≤ y ∧ y < h - 1 ∧ 1 ≤ x ∧ x < w - 1 then
      at2 (sobelY blurred w x y) (sobelX blurred w x y)
    else 0

/-- Non-maximum suppression of `cannyEdgeDetection` (step 2): the angle is
scaled to degrees by `r2d` (abstracting the float `180 / Math.PI`),
normalized into `[0, 180]`, bucketed into the four sectors of the source
(`22.5 = 45/2`, `67.5 = 135/2`, `112.5 = 225/2`, `157.5 = 315/2`), and the
pixel survives iff its magnitude is ≥ both neighbors along the gradient
direction. Non-interior cells of the `Float32Array(w*h)` stay zero. -/
def cannyNms (magnitudes directions : List ℚ) (r2d : ℚ) (w h : ℕ) : List ℚ :=
  (List.range (w * h)).map fun idx =>
    let y := idx / w
    let x := idx % w
    if 1 ≤ y ∧ y < h - 1 ∧ 1 ≤ x ∧ x < w - 1 then
      let angle := directions.getD (y*w + x) 0
      let mag := magnitudes.getD (y*w + x) 0
      let a0 := angle * r2d
      let a := if a0 < 0 then a0 + 180 else a0
      let qr : ℚ × ℚ :=
        if (0 ≤ a ∧ a < 45/2) ∨ (315/2 ≤ a ∧ a ≤ 180) then
          (magnitudes.getD (y*w + (x+1)) 0, magnitudes.getD (y*w + (x-1)) 0)
        else if 45/2 ≤ a ∧ a < 135/2 then
          (magnitudes.getD ((y+1)*w + (x+1)) 0, magnitudes.getD ((y-1)*w + (x-1)) 0)
        else if 135/2 ≤ a ∧ a < 225/2 then
          (magnitudes.getD ((y+1)*w + x) 0, magnitudes.getD ((y-1)*w + x) 0)
        else if 225/2 ≤ a ∧ a < 315/2 then
          (magnitudes.getD ((y-1)*w + (x+1)) 0, magnitudes.getD ((y+1)*w + (x-1)) 0)
        else (255, 255)
      if qr.1 ≤ mag ∧ qr.2 ≤ mag then mag else 0
    else 0

/-- The 8-neighborhood offsets `(dy, dx)` in the scan order both loops of the
source use: `dy` (outer) and `dx` (inner) each from −1 to 1, skipping
`(0, 0)`. -/
def neighborOffsets : List (Int × Int) :=
  [(-1,-1), (-1,0), (-1,1), (0,-1), (0,1), (1,-1), (1,0), (1,1)]

/-- Bounds-checked neighbor index: for cell `(cx, cy)` and offset `(dy, dx)`,
`some (ny*w + nx)` when `0 ≤ nx < w` and `0 ≤ ny < h`, else `none`
(the `if (nx >= 0 && nx < width && ny >= 0 && ny < height)` guard). -/
def inBoundsNeighbor (w h : ℕ) (cx cy : ℕ) (o : Int × Int) : Option ℕ :=
  if 0 ≤ (cx : Int) + o.2 ∧ (cx : Int) + o.2 < (w : Int)
      ∧ 0 ≤ (cy : Int) + o.1 ∧ (cy : Int) + o.1 < (h : Int) then
    some (((cy : Int) + o.1).toNat * w + ((cx : Int) + o.2).toNat)
  else none

/-- All in-bounds 8-neighbor indices of cell `(cx, cy)`, in scan order. -/
def neighborIdxList (w h : ℕ) (cx cy : ℕ) : List ℕ :=
  neighborOffsets.filterMap (inBoundsNeighbor w h cx cy)

/-- Inner double loop of the hysteresis propagation: for each offset in turn,
a `WEAK` (1) in-bounds neighbor is promoted to `STRONG` (2) and pushed onto
the worklist (head of the list = top of the JS array stack). -/
def processNeighbors (w h : ℕ) (cx cy : ℕ) :
    List (Int × Int) → List ℕ → List ℕ → List ℕ × List ℕ
  | [], tm, stack => (tm, stack)
  | o :: rest, tm, stack =>
    match inBoundsNeighbor w h cx cy o with
    | some nIdx =>
      if tm.getD nIdx 0 = 1 then
        processNeighbors w h cx cy rest (tm.set nIdx 2) (nIdx :: stack)
      else processNeighbors w h cx cy rest tm stack
    | none => processNeighbors w h cx cy rest tm stack

/-- The `while (stack.length > 0)` propagation loop of `cannyEdgeDetection`,
with fuel. Each iteration pops the top index `idx`, decodes
`cx = idx % w`, `cy = ⌊idx / w⌋` and promotes its weak neighbors. -/
def hysteresisLoopF (w h : ℕ) : ℕ → List ℕ → List ℕ → List ℕ
  | _, tm, [] => tm
  | 0, tm, _ :: _ => tm
  | fuel + 1, tm, idx :: rest =>
    let r := processNeighbors w h (idx % w) (idx / w) neighborOffsets tm rest
    hysteresisLoopF w h fuel r.1 r.2

/-- Hysteresis thresholding of `cannyEdgeDetection` (step 3): the trace map
marks `nms[i] ≥ high` as 2 (`STRONG`, pushed onto the worklist in index
order, so the top of the stack is the largest index), `nms[i] ≥ low` as 1
(`WEAK`), else 0, then runs the propagation loop. The fuel
`stack.length + 2*tm.length + 1` strictly dominates the loop measure
`stack.length + 2 * (number of WEAK cells)`. -/
def cannyHysteresis (nms : List ℚ) (w h : ℕ) (low high : ℚ) : List ℕ :=
  let tm := nms.map fun v => if high ≤ v then 2 else if low ≤ v then 1 else 0
  let stack := ((List.range nms.length).filter fun i => high ≤ nms.getD i 0).reverse
  hysteresisLoopF w h (stack.length + 2 * tm.length + 1) tm stack

/-- The trace map computed by `cannyEdgeDetection` before the RGBA output
step: grayscale → blur → Sobel magnitudes/directions → NMS → hysteresis. -/
def cannyTraceMap (sq : ℚ → ℚ) (at2 : ℚ → ℚ → ℚ) (r2d : ℚ)
    (img : ImageData) (low high : ℚ) : List ℕ :=
  let gray := toGrayscale img.data
  let blurred := gaussianBlur (gray.map (Nat.cast : ℕ → ℚ)) img.width img.height
  let mags := cannyMagnitudes sq blurred img.width img.height
  let dirs := cannyDirections at2 blurred img.width img.height
  let nms := cannyNms mags dirs r2d img.width img.height
  cannyHysteresis nms img.width img.height low high

/-- `cannyEdgeDetection` (algo.ts): final RGBA output. The
`Uint8ClampedArray` has the input buffer's length; for each trace-map cell
`i` the loop writes `val` (255 iff `STRONG`) to channels `4i..4i+2` and 255
to the alpha channel `4i+3`; cells beyond the buffer are dropped and bytes
beyond `4 * traceMap.length` stay zero. -/
def cannyEdgeDetection (sq : ℚ → ℚ) (at2 : ℚ → ℚ → ℚ) (r2d : ℚ)
    (img : ImageData) (low high : ℚ) : List ℕ :=
  let tm := cannyTraceMap sq at2 r2d img low high
  (List.range img.data.length).map fun idx =>
    if idx / 4 < tm.length then
      if idx % 4 = 3 then 255
      else if tm.getD (idx / 4) 0 = 2 then 255 else 0
    else 0

/-- Row-major enumeration of edge pixels (`vectoriseEdges`): a pixel is an
edge iff its red channel byte `edgeData[(y*w + x)*4]` equals 255. -/
def edgePixels (edgeData : List ℕ) (w h : ℕ) : List Point :=
  (List.range h).flatMap fun y =>
    (List.range w).filterMap fun x =>
      if edgeData.getD ((y * w + x) * 4) 0 = 255 then some ⟨x, y⟩ else none

/-- Neighbor search of the greedy walk: the first offset (in scan order)
whose target is in bounds, not yet visited and an edge pixel; the source
breaks out of both loops at the first hit. The JS visited set keyed by the
string `x,y` is modelled as a list of points. -/
def findUnvisitedNeighbor (edgeData : List ℕ) (w h : ℕ) (visited : List Point)
    (curr : Point) : List (Int × Int) → Option Point
  | [] => none
  | (dy, dx) :: rest =>
    let nx := curr.x + dx
    let ny := curr.y + dy
    if 0 ≤ nx ∧ nx < (w : Int) ∧ 0 ≤ ny ∧ ny < (h : Int)
        ∧ (⟨nx, ny⟩ : Point) ∉ visited
        ∧ edgeData.getD ((ny.toNat * w + nx.toNat) * 4) 0 = 255 then
      some ⟨nx, ny⟩
    else findUnvisitedNeighbor edgeData w h visited curr rest

/-- The `while (stack.length)` greedy walk of `vectoriseEdges`, with fuel:
peek at the stack top, take its first unvisited edge neighbor (marking it
visited and appending it to the path), or backtrack by popping. Returns the
final visited set and the traced path. -/
def walkLoopF (edgeData : List ℕ) (w h : ℕ) :
    ℕ → List Point → List Point → List Point → List Point × List Point
  | _, visited, path, [] => (visited, path)
  | 0, visited, path, _ :: _ => (visited, path)
  | fuel + 1, visited, path, curr :: rest =>
    match findUnvisitedNeighbor edgeData w h visited curr neighborOffsets with
    | some npt =>
      walkLoopF edgeData w h fuel (npt :: visited) (path ++ [npt])
        (npt :: curr :: rest)
    | none => walkLoopF edgeData w h fuel visited path rest

/-- Outer loop of `vectoriseEdges` over the row-major edge pixels: each
unvisited pixel seeds a walk (visited set, path and stack all start at the
pixel); the completed path is kept iff `path.length > minPathLength`. The
walk fuel `2*(w*h) + 1` dominates the iteration count (one fresh in-bounds
pixel per push, at most one pop per push plus the seed). -/
def traceLoop (edgeData : List ℕ) (w h minLen : ℕ) :
    List Point → List Point → List (List Point) → List (List Point)
  | [], _, paths => paths
  | p :: ps, visited, paths =>
    if p ∈ visited then traceLoop edgeData w h minLen ps visited paths
    else
      let r := walkLoopF edgeData w h (2 * (w * h) + 1) (p :: visited) [p] [p]
      traceLoop edgeData w h minLen ps r.1
        (if minLen < r.2.length then paths ++ [r.2] else paths)

/-- The raw (pre-simplification) traced paths of `vectoriseEdges`: the value
of `paths` after the outer scan, before the `map`/`filter` stage. -/
def rawPaths (edgeData : List ℕ) (w h minLen : ℕ) : List (List Point) :=
  traceLoop edgeData w h minLen (edgePixels edgeData w h) [] []

/-- `stride = Math.max(1, Math.floor(simplification))`; `max 1` makes the
floored value's clamping to ℕ exact. -/
def simplifyStride (simplification : ℚ) : ℕ := max 1 ⌊simplification⌋.toNat

/-- Decimation loop `for (i = 0; i < path.length; i += stride)`:
keeps `path[0], path[stride], path[2*stride], …`.
`(path.length + stride - 1) / stride` is the number of loop iterations
(for the `stride ≥ 1` the caller always supplies). -/
def decimate (path : List Point) (stride : ℕ) : List Point :=
  (List.range ((path.length + stride - 1) / stride)).map fun k =>
    path.getD (k * stride) ⟨0, 0⟩

/-- Per-path simplification of `vectoriseEdges`: paths of length < 2 map to
`[]`; otherwise the path is decimated and the final point force-appended
when the decimation's last element differs from it. (The source compares
with `!==`; since every element of a traced path is a distinct object with
distinct coordinates, reference and structural inequality coincide there.) -/
def simplifyPath (stride : ℕ) (path : List Point) : List Point :=
  if path.length < 2 then []
  else if (decimate path stride).getLast? = path.getLast? then decimate path stride
  else decimate path stride ++ [path.getD (path.length - 1) ⟨0, 0⟩]

/-- `vectoriseEdges` (algo.ts): trace raw paths, drop those not longer than
`minPathLength`, decimate each survivor, and keep only simplified paths of
length > 1. -/
def vectoriseEdges (edgeData : List ℕ) (w h : ℕ) (simplification : ℚ)
    (minPathLength : ℕ) : List (List Point) :=
  ((rawPaths edgeData w h minPathLength).map
      (simplifyPath (simplifyStride simplification))).filter
    fun p => 1 < p.length

/-- Chebyshev distance between two points. -/
def chebDist (p q : Point) : ℕ := max (p.x - q.x).natAbs (p.y - q.y).natAbs

/-- Chebyshev adjacency of two row-major cell indices of a width-`w` grid. -/
def chebIdxAdj (w : ℕ) (i j : ℕ) : Prop :=
  max (((i % w : ℕ) : ℤ) - ((j % w : ℕ) : ℤ)).natAbs
    (((i / w : ℕ) : ℤ) - ((j / w : ℕ) : ℤ)).natAbs = 1

instance (w i j : ℕ) : Decidable (chebIdxAdj w i j) :=
  inferInstanceAs (Decidable (_ = _))

/-- Cell `j` of the `w × h` grid is connected to a seed of magnitude ≥ `high`
by a chain of 8-adjacent cells each of magnitude ≥ `low`. -/
inductive ReachesStrong (nms : List ℚ) (w h : ℕ) (low high : ℚ) : ℕ → Prop
  | seed (i : ℕ) (hi : i < w * h) (hhigh : high ≤ nms.getD i 0) :
      ReachesStrong nms w h low high i
  | step (i j : ℕ) (hr : ReachesStrong nms w h low high i) (hj : j < w * h)
      (hadj : chebIdxAdj w i j) (hlow : low ≤ nms.getD j 0) :
      ReachesStrong nms w h low high j

/-- Every point of a path after the first is Chebyshev-adjacent to some
earlier point of the path. -/
def ChainToEarlier (p : List Point) : Prop :=
  ∀ k, k + 1 < p.length →
    ∃ j, j ≤ k ∧ chebDist (p.getD j ⟨0, 0⟩) (p.getD (k+1) ⟨0, 0⟩) = 1

/-- Two paths share no point. -/
def Disj (p q : List Point) : Prop := ∀ a ∈ p, a ∉ q

/-! ### Generic list helpers -/

lemma getD_range_map {α : Type} (n : ℕ) (f : ℕ → α) (i : ℕ) (d : α) :
    ((List.range n).map f).getD i d = if i < n then f i else d := by
  rcases Nat.lt_or_ge i n with h | h
  · rw [List.getD_eq_getElem?_getD, List.getElem?_map, List.getElem?_range h]
    simp [h]
  · rw [List.getD_eq_getElem?_getD, List.getElem?_map,
      List.getElem?_eq_none (by simpa using h)]
    simp [Nat.not_lt.mpr h]

lemma getD_map_lt {α β : Type} (l : List α) (f : α → β) (i : ℕ) (d : β) (d' : α)
    (h : i < l.length) : (l.map f).getD i d = f (l.getD i d') := by
  rw [List.getD_eq_getElem?_getD, List.getElem?_map, List.getElem?_eq_getElem h,
    List.getD_eq_getElem?_getD, List.getElem?_eq_getElem h]
  rfl

lemma getD_set (l : List ℕ) (n k v d : ℕ) :
    (l.set n v).getD k d = if k = n ∧ n < l.length then v else l.getD k d := by
  rcases eq_or_ne k n with rfl | hne
  · rcases Nat.lt_or_ge k l.length with h | h
    · rw [List.getD_eq_getElem?_getD, List.getElem?_set_self' ]
      rw [List.getElem?_eq_getElem h]
      simp [h]
    · rw [List.set_eq_of_length_le (by omega)]
      simp [Nat.not_lt.mpr h]
  · rw [List.getD_eq_getElem?_getD, List.getElem?_set_ne (by omega),
      ← List.getD_eq_getElem?_getD]
    simp [hne]

lemma getD_one_lt_length (l : List ℕ) (k : ℕ) (h : l.getD k 0 = 1) :
    k < l.length := by
  by_contra hk
  rw [List.getD_eq_getElem?_getD, List.getElem?_eq_none (by omega)] at h
  simp at h

lemma count_set_one (l : List ℕ) (n : ℕ) (h : l.getD n 0 = 1) :
    (l.set n 2).count 1 + 1 = l.count 1 := by
  induction l generalizing n with
  | nil => simp [List.getD] at h
  | cons a t ih =>
    cases n with
    | zero =>
      simp only [List.getD_cons_zero] at h
      subst h
      simp [List.set, List.count_cons]
    | succ m =>
      simp only [List.getD_cons_succ] at h
      simp only [List.set, List.count_cons]
      have := ih m h
      omega

lemma getD_append_left {α : Type} (l₁ l₂ : List α) (k : ℕ) (d : α)
    (h : k < l₁.length) : (l₁ ++ l₂).getD k d = l₁.getD k d := by
  rw [List.getD_eq_getElem?_getD, List.getElem?_append, if_pos h,
    ← List.getD_eq_getElem?_getD]

/-! ### Neighbor-index lemmas -/

lemma offset_cheb (dy dx : ℤ) (hmem : (dy, dx) ∈ neighborOffsets) :
    max dx.natAbs dy.natAbs = 1 := by
  fin_cases hmem <;> rfl

lemma inBoundsNeighbor_some (w h cx cy : ℕ) (dy dx : ℤ) (k : ℕ)
    (hk : inBoundsNeighbor w h cx cy (dy, dx) = some k) :
    0 ≤ (cx : ℤ) + dx ∧ (cx : ℤ) + dx < w ∧ 0 ≤ (cy : ℤ) + dy ∧ (cy : ℤ) + dy < h
      ∧ k = ((cy : ℤ) + dy).toNat * w + ((cx : ℤ) + dx).toNat := by
  simp only [inBoundsNeighbor] at hk
  split at hk
  · rename_i hcond
    exact ⟨hcond.1, hcond.2.1, hcond.2.2.1, hcond.2.2.2, (Option.some.injEq _ _).mp hk.symm⟩
  · exact absurd hk (by simp)

lemma mem_neighborIdxList_lt (w h cx cy k : ℕ)
    (hk : k ∈ neighborIdxList w h cx cy) : k < w * h := by
  rw [neighborIdxList, List.mem_filterMap] at hk
  obtain ⟨⟨dy, dx⟩, _, hsome⟩ := hk
  obtain ⟨_, hx, _, hy, rfl⟩ := inBoundsNeighbor_some w h cx cy dy dx k hsome
  have hx' : ((cx : ℤ) + dx).toNat < w := by omega
  have hy' : ((cy : ℤ) + dy).toNat < h := by omega
  calc ((cy : ℤ) + dy).toNat * w + ((cx : ℤ) + dx).toNat
      < ((cy : ℤ) + dy).toNat * w + w := by omega
    _ = (((cy : ℤ) + dy).toNat + 1) * w := by ring
    _ ≤ h * w := Nat.mul_le_mul_right w hy'
    _ = w * h := Nat.mul_comm h w

lemma decode_mod_div (a b w : ℕ) (hb : b < w) :
    (a * w + b) % w = b ∧ (a * w + b) / w = a := by
  constructor
  · rw [Nat.add_comm, Nat.add_mul_mod_self_right, Nat.mod_eq_of_lt hb]
  · rw [Nat.add_comm, Nat.add_mul_div_right _ _ (by omega), Nat.div_eq_of_lt hb]
    omega

lemma chebIdxAdj_of_mem_neighborIdxList (w h idx k : ℕ) (hidx : idx < w * h)
    (hk : k ∈ neighborIdxList w h (idx % w) (idx / w)) : chebIdxAdj w idx k := by
  rw [neighborIdxList, List.mem_filterMap] at hk
  obtain ⟨⟨dy, dx⟩, hmem, hsome⟩ := hk
  obtain ⟨hx0, hx, hy0, hy, rfl⟩ :=
    inBoundsNeighbor_some w h (idx % w) (idx / w) dy dx k hsome
  have hw : 0 < w := by
    rcases Nat.eq_zero_or_pos w with rfl | hw
    · simp at hidx
    · exact hw
  have hxlt : (((idx % w : ℕ) : ℤ) + dx).toNat < w := by omega
  obtain ⟨hmod, hdiv⟩ :=
    decode_mod_div (((idx / w : ℕ) : ℤ) + dy).toNat (((idx % w : ℕ) : ℤ) + dx).toNat w hxlt
  have hcheb := offset_cheb dy dx hmem
  rw [chebIdxAdj, hmod, hdiv]
  have e1 : ((((idx % w : ℕ) : ℤ) + dx).toNat : ℤ) = ((idx % w : ℕ) : ℤ) + dx :=
    Int.toNat_of_nonneg hx0
  have e2 : ((((idx / w : ℕ) : ℤ) + dy).toNat : ℤ) = ((idx / w : ℕ) : ℤ) + dy :=
    Int.toNat_of_nonneg hy0
  rw [e1, e2]
  omega

lemma mem_neighborIdxList_of_chebIdxAdj (w h i j : ℕ) (hi : i < w * h)
    (hj : j < w * h) (hadj : chebIdxAdj w i j) :
    j ∈ neighborIdxList w h (i % w) (i / w) := by
  have hw : 0 < w := by
    rcases Nat.eq_zero_or_pos w with rfl | hw
    · simp at hi
    · exact hw
  have hjmod : j % w < w := Nat.mod_lt j hw
  have hjdiv : j / w < h := by
    rw [Nat.div_lt_iff_lt_mul hw, Nat.mul_comm]
    exact hj
  have hjdecomp : j / w * w + j % w = j := Nat.div_add_mod' j w
  rw [chebIdxAdj] at hadj
  generalize hxi : i % w = xi at hadj ⊢
  generalize hyi : i / w = yi at hadj ⊢
  generalize hxj : j % w = xj at hadj hjmod hjdecomp
  generalize hyj : j / w = yj at hadj hjdiv hjdecomp
  obtain ⟨dx, hdx⟩ : ∃ d : ℤ, d = (xj : ℤ) - (xi : ℤ) := ⟨_, rfl⟩
  obtain ⟨dy, hdy⟩ : ∃ d : ℤ, d = (yj : ℤ) - (yi : ℤ) := ⟨_, rfl⟩
  have hdxa : dx.natAbs ≤ 1 := by
    have h1 := le_max_left ((xi : ℤ) - (xj : ℤ)).natAbs ((yi : ℤ) - (yj : ℤ)).natAbs
    rw [hadj] at h1
    omega
  have hdya : dy.natAbs ≤ 1 := by
    have h1 := le_max_right ((xi : ℤ) - (xj : ℤ)).natAbs ((yi : ℤ) - (yj : ℤ)).natAbs
    rw [hadj] at h1
    omega
  have hne : ¬ (dx = 0 ∧ dy = 0) := by
    rintro ⟨h1, h2⟩
    have e1 : ((xi : ℤ) - (xj : ℤ)).natAbs = 0 := by omega
    have e2 : ((yi : ℤ) - (yj : ℤ)).natAbs = 0 := by omega
    rw [e1, e2] at hadj
    simp at hadj
  have hmemO : (dy, dx) ∈ neighborOffsets := by
    rcases (show dx = -1 ∨ dx = 0 ∨ dx = 1 by omega) with rfl | rfl | rfl <;>
      rcases (show dy = -1 ∨ dy = 0 ∨ dy = 1 by omega) with rfl | rfl | rfl <;>
      first
        | decide
        | exact absurd ⟨rfl, rfl⟩ hne
  rw [neighborIdxList, List.mem_filterMap]
  refine ⟨(dy, dx), hmemO, ?_⟩
  simp only [inBoundsNeighbor]
  rw [if_pos]
  · congr 1
    have e1 : ((yi : ℤ) + dy).toNat = yj := by omega
    have e2 : ((xi : ℤ) + dx).toNat = xj := by omega
    rw [e1, e2, hjdecomp]
  · refine ⟨by omega, by omega, by omega, by omega⟩

/-! ### Invariants of the hysteresis inner loop -/

lemma processNeighbors_stack_subset (w h cx cy : ℕ) (offs : List (Int × Int))
    (tm stack : List ℕ) :
    stack ⊆ (processNeighbors w h cx cy offs tm stack).2 := by
  induction offs generalizing tm stack with
  | nil => simp [processNeighbors]
  | cons o rest ih =>
    simp only [processNeighbors]
    split
    · split
      · exact fun a ha => ih _ _ (List.mem_cons_of_mem _ ha)
      · exact ih tm stack
    · exact ih tm stack

lemma processNeighbors_stack_length (w h cx cy : ℕ) (offs : List (Int × Int))
    (tm stack : List ℕ) :
    stack.length ≤ (processNeighbors w h cx cy offs tm stack).2.length := by
  induction offs generalizing tm stack with
  | nil => simp [processNeighbors]
  | cons o rest ih =>
    simp only [processNeighbors]
    split
    · split
      · rename_i nIdx heq h1
        have hstep := ih (tm.set nIdx 2) (nIdx :: stack)
        simp only [List.length_cons] at hstep
        omega
      · exact ih tm stack
    · exact ih tm stack

lemma processNeighbors_getD (w h cx cy : ℕ) (offs : List (Int × Int))
    (tm stack : List ℕ) (k : ℕ) :
    (processNeighbors w h cx cy offs tm stack).1.getD k 0 = tm.getD k 0 ∨
      (tm.getD k 0 = 1 ∧ (processNeighbors w h cx cy offs tm stack).1.getD k 0 = 2
        ∧ k ∈ offs.filterMap (inBoundsNeighbor w h cx cy)
        ∧ k ∈ (processNeighbors w h cx cy offs tm stack).2) := by
  induction offs generalizing tm stack with
  | nil => exact Or.inl rfl
  | cons o rest ih =>
    simp only [processNeighbors]
    split
    · rename_i nIdx heq
      split
      · rename_i h1
        have hlen : nIdx < tm.length := getD_one_lt_length tm nIdx h1
        rcases ih (tm.set nIdx 2) (nIdx :: stack) with hsame | ⟨g1, g2, g3, g4⟩
        · rw [hsame, getD_set]
          by_cases hkn : k = nIdx
          · subst hkn
            refine Or.inr ⟨h1, by simp [hlen], ?_, ?_⟩
            · simp [List.filterMap_cons, heq]
            · exact processNeighbors_stack_subset w h cx cy rest _ _ (by simp)
          · rw [if_neg (by simp [hkn])]
            exact Or.inl rfl
        · rw [getD_set] at g1
          by_cases hkn : k = nIdx
          · subst hkn
            simp [hlen] at g1
          · rw [if_neg (by simp [hkn])] at g1
            exact Or.inr ⟨g1, g2, by simp [List.filterMap_cons, heq, g3], g4⟩
      · rcases ih tm stack with hsame | ⟨g1, g2, g3, g4⟩
        · exact Or.inl hsame
        · exact Or.inr ⟨g1, g2, by simp [List.filterMap_cons, heq, g3], g4⟩
    · rename_i heq
      rcases ih tm stack with hsame | ⟨g1, g2, g3, g4⟩
      · exact Or.inl hsame
      · exact Or.inr ⟨g1, g2, by simp [List.filterMap_cons, heq, g3], g4⟩

/-- Value-only corollary: each cell is unchanged or set to 2. -/
lemma processNeighbors_getD_cases (w h cx cy : ℕ) (offs : List (Int × Int))
    (tm stack : List ℕ) (k : ℕ) :
    (processNeighbors w h cx cy offs tm stack).1.getD k 0 = tm.getD k 0 ∨
      (processNeighbors w h cx cy offs tm stack).1.getD k 0 = 2 := by
  rcases processNeighbors_getD w h cx cy offs tm stack k with hsame | ⟨_, h2, _, _⟩
  · exact Or.inl hsame
  · exact Or.inr h2

lemma processNeighbors_stack_mem (w h cx cy : ℕ) (offs : List (Int × Int))
    (tm stack : List ℕ) (k : ℕ)
    (hk : k ∈ (processNeighbors w h cx cy offs tm stack).2) :
    k ∈ stack ∨ (k ∈ offs.filterMap (inBoundsNeighbor w h cx cy)
      ∧ (processNeighbors w h cx cy offs tm stack).1.getD k 0 = 2) := by
  induction offs generalizing tm stack with
  | nil => exact Or.inl hk
  | cons o rest ih =>
    simp only [processNeighbors] at hk ⊢
    split at hk
    · rename_i nIdx heq
      split at hk
      · rename_i h1
        have hlen : nIdx < tm.length := getD_one_lt_length tm nIdx h1
        rw [if_pos h1]
        rcases ih (tm.set nIdx 2) (nIdx :: stack) hk with hm | ⟨g1, g2⟩
        · rcases List.mem_cons.mp hm with hkn | hm2
          · subst hkn
            refine Or.inr ⟨by simp [List.filterMap_cons, heq], ?_⟩
            rcases processNeighbors_getD_cases w h cx cy rest (tm.set k 2)
              (k :: stack) k with h2 | h2
            · rw [h2, getD_set]
              simp [hlen]
            · exact h2
          · exact Or.inl hm2
        · exact Or.inr ⟨by simp [List.filterMap_cons, heq, g1], g2⟩
      · rename_i h1
        rw [if_neg h1]
        rcases ih tm stack hk with hm | ⟨g1, g2⟩
        · exact Or.inl hm
        · exact Or.inr ⟨by simp [List.filterMap_cons, heq, g1], g2⟩
    · rename_i heq
      rcases ih tm stack hk with hm | ⟨g1, g2⟩
      · exact Or.inl hm
      · exact Or.inr ⟨by simp [List.filterMap_cons, heq, g1], g2⟩

lemma processNeighbors_count (w h cx cy : ℕ) (offs : List (Int × Int))
    (tm stack : List ℕ) :
    (processNeighbors w h cx cy offs tm stack).1.count 1
        + (processNeighbors w h cx cy offs tm stack).2.length
      = tm.count 1 + stack.length := by
  induction offs generalizing tm stack with
  | nil => simp [processNeighbors]
  | cons o rest ih =>
    simp only [processNeighbors]
    split
    · split
      · rename_i nIdx heq h1
        have hcount := count_set_one tm nIdx h1
        have hstep := ih (tm.set nIdx 2) (nIdx :: stack)
        simp only [List.length_cons] at hstep
        omega
      · exact ih tm stack
    · exact ih tm stack

lemma processNeighbors_post (w h cx cy : ℕ) (offs : List (Int × Int))
    (tm stack : List ℕ) (k : ℕ)
    (hk : k ∈ offs.filterMap (inBoundsNeighbor w h cx cy)) :
    (processNeighbors w h cx cy offs tm stack).1.getD k 0 ≠ 1 := by
  induction offs generalizing tm stack with
  | nil => simp at hk
  | cons o rest ih =>
    simp only [processNeighbors]
    rw [List.filterMap_cons] at hk
    split
    · rename_i nIdx heq
      rw [heq] at hk
      rcases List.mem_cons.mp hk with hkn | hk'
      · subst hkn
        split
        · rename_i h1
          have hlen : k < tm.length := getD_one_lt_length tm k h1
          rcases processNeighbors_getD_cases w h cx cy rest (tm.set k 2)
            (k :: stack) k with h2 | h2
          · rw [h2, getD_set]
            simp [hlen]
          · omega
        · rename_i h1
          rcases processNeighbors_getD_cases w h cx cy rest tm stack k with h2 | h2
          · rw [h2]
            exact h1
          · omega
      · split
        · exact ih _ _ hk'
        · exact ih tm stack hk'
    · rename_i heq
      rw [heq] at hk
      exact ih tm stack hk

lemma processNeighbors_noweak (w h cx cy : ℕ) (offs : List (Int × Int))
    (tm stack : List ℕ) (hnw : ∀ k, tm.getD k 0 ≠ 1) :
    processNeighbors w h cx cy offs tm stack = (tm, stack) := by
  induction offs with
  | nil => rfl
  | cons o rest ih =>
    simp only [processNeighbors]
    split
    · rename_i nIdx heq
      rw [if_neg (hnw nIdx)]
      exact ih
    · exact ih



/-! ### Invariants of the hysteresis worklist loop -/

lemma hysteresisLoopF_mono (w h fuel : ℕ) (tm stack : List ℕ) (k : ℕ)
    (hk : tm.getD k 0 = 2) :
    (hysteresisLoopF w h fuel tm stack).getD k 0 = 2 := by
  induction fuel generalizing tm stack with
  | zero => cases stack <;> (simp only [hysteresisLoopF]; exact hk)
  | succ n ih =>
    cases stack with
    | nil => simp only [hysteresisLoopF]; exact hk
    | cons idx rest =>
      simp only [hysteresisLoopF]
      apply ih
      rcases processNeighbors_getD_cases w h (idx % w) (idx / w) neighborOffsets
        tm rest k with h2 | h2
      · rw [h2]
        exact hk
      · exact h2

lemma hysteresisLoopF_zero (w h fuel : ℕ) (tm stack : List ℕ) (k : ℕ)
    (hk : tm.getD k 0 = 0) :
    (hysteresisLoopF w h fuel tm stack).getD k 0 = 0 := by
  induction fuel generalizing tm stack with
  | zero => cases stack <;> (simp only [hysteresisLoopF]; exact hk)
  | succ n ih =>
    cases stack with
    | nil => simp only [hysteresisLoopF]; exact hk
    | cons idx rest =>
      simp only [hysteresisLoopF]
      apply ih
      rcases processNeighbors_getD w h (idx % w) (idx / w) neighborOffsets
        tm rest k with h2 | ⟨h1, _, _, _⟩
      · rw [h2]
        exact hk
      · omega

lemma hysteresisLoopF_cases (w h fuel : ℕ) (tm stack : List ℕ) (k : ℕ) :
    (hysteresisLoopF w h fuel tm stack).getD k 0 = tm.getD k 0 ∨
      (hysteresisLoopF w h fuel tm stack).getD k 0 = 2 := by
  induction fuel generalizing tm stack with
  | zero => cases stack <;> simp [hysteresisLoopF]
  | succ n ih =>
    cases stack with
    | nil => simp [hysteresisLoopF]
    | cons idx rest =>
      simp only [hysteresisLoopF]
      rcases ih (processNeighbors w h (idx % w) (idx / w) neighborOffsets tm rest).1
        (processNeighbors w h (idx % w) (idx / w) neighborOffsets tm rest).2 with h2 | h2
      · rcases processNeighbors_getD_cases w h (idx % w) (idx / w) neighborOffsets
          tm rest k with h3 | h3
        · rw [h2, h3]
          exact Or.inl rfl
        · rw [h2, h3]
          exact Or.inr rfl
      · exact Or.inr h2

lemma hysteresisLoopF_noweak (w h fuel : ℕ) (tm stack : List ℕ)
    (hnw : ∀ k, tm.getD k 0 ≠ 1) :
    hysteresisLoopF w h fuel tm stack = tm := by
  induction fuel generalizing stack with
  | zero => cases stack <;> simp [hysteresisLoopF]
  | succ n ih =>
    cases stack with
    | nil => simp [hysteresisLoopF]
    | cons idx rest =>
      simp only [hysteresisLoopF]
      rw [processNeighbors_noweak w h (idx % w) (idx / w) neighborOffsets tm rest hnw]
      exact ih rest

lemma hysteresisLoopF_sound (nms : List ℚ) (w h : ℕ) (low high : ℚ)
    (fuel : ℕ) (tm stack : List ℕ)
    (H1 : ∀ k, tm.getD k 0 = 2 → low ≤ nms.getD k 0 ∧ ReachesStrong nms w h low high k)
    (H2 : ∀ k, tm.getD k 0 = 1 → low ≤ nms.getD k 0)
    (H3 : ∀ k ∈ stack, tm.getD k 0 = 2 ∧ k < w * h) :
    ∀ k, (hysteresisLoopF w h fuel tm stack).getD k 0 = 2 →
      low ≤ nms.getD k 0 ∧ ReachesStrong nms w h low high k := by
  induction fuel generalizing tm stack with
  | zero =>
    intro k hk
    cases stack <;> simp only [hysteresisLoopF] at hk <;> exact H1 k hk
  | succ n ih =>
    intro k hk
    cases stack with
    | nil =>
      simp only [hysteresisLoopF] at hk
      exact H1 k hk
    | cons idx rest =>
      simp only [hysteresisLoopF] at hk
      obtain ⟨hidx2, hidxlt⟩ := H3 idx (List.mem_cons_self idx rest)
      refine ih (processNeighbors w h (idx % w) (idx / w) neighborOffsets tm rest).1
        (processNeighbors w h (idx % w) (idx / w) neighborOffsets tm rest).2
        ?_ ?_ ?_ k hk
      · intro m hm
        rcases processNeighbors_getD w h (idx % w) (idx / w) neighborOffsets
          tm rest m with hsame | ⟨g1, _, g3, _⟩
        · exact H1 m (hsame ▸ hm)
        · have hmlow : low ≤ nms.getD m 0 := H2 m g1
          have hmlt : m < w * h := mem_neighborIdxList_lt w h (idx % w) (idx / w) m g3
          have hadj : chebIdxAdj w idx m :=
            chebIdxAdj_of_mem_neighborIdxList w h idx m hidxlt g3
          exact ⟨hmlow, ReachesStrong.step idx m (H1 idx hidx2).2 hmlt hadj hmlow⟩
      · intro m hm
        rcases processNeighbors_getD w h (idx % w) (idx / w) neighborOffsets
          tm rest m with hsame | ⟨_, g2, _, _⟩
        · exact H2 m (hsame ▸ hm)
        · omega
      · intro m hm
        rcases processNeighbors_stack_mem w h (idx % w) (idx / w) neighborOffsets
          tm rest m hm with hmr | ⟨g1, g2⟩
        · obtain ⟨hm2, hmlt⟩ := H3 m (List.mem_cons_of_mem idx hmr)
          refine ⟨?_, hmlt⟩
          rcases processNeighbors_getD_cases w h (idx % w) (idx / w) neighborOffsets
            tm rest m with hsame | h2
          · rw [hsame]
            exact hm2
          · exact h2
        · exact ⟨g2, mem_neighborIdxList_lt w h (idx % w) (idx / w) m g1⟩

lemma hysteresisLoopF_exhaust (w h fuel : ℕ) (tm stack : List ℕ)
    (Hsuf : stack.length + 2 * tm.count 1 ≤ fuel)
    (H5 : ∀ k, tm.getD k 0 = 2 → k ∈ stack ∨
      ∀ j ∈ neighborIdxList w h (k % w) (k / w), tm.getD j 0 ≠ 1) :
    ∀ k, (hysteresisLoopF w h fuel tm stack).getD k 0 = 2 →
      ∀ j ∈ neighborIdxList w h (k % w) (k / w),
        (hysteresisLoopF w h fuel tm stack).getD j 0 ≠ 1 := by
  induction fuel generalizing tm stack with
  | zero =>
    cases stack with
    | nil =>
      intro k hk j hj
      simp only [hysteresisLoopF] at hk ⊢
      rcases H5 k hk with hmem | hnone
      · simp at hmem
      · exact hnone j hj
    | cons idx rest => simp at Hsuf
  | succ n ih =>
    cases stack with
    | nil =>
      intro k hk j hj
      simp only [hysteresisLoopF] at hk ⊢
      rcases H5 k hk with hmem | hnone
      · simp at hmem
      · exact hnone j hj
    | cons idx rest =>
      intro k hk j hj
      simp only [hysteresisLoopF] at hk ⊢
      set r := processNeighbors w h (idx % w) (idx / w) neighborOffsets tm rest with hr
      have hcount := processNeighbors_count w h (idx % w) (idx / w) neighborOffsets tm rest
      have hlen := processNeighbors_stack_length w h (idx % w) (idx / w) neighborOffsets tm rest
      refine ih r.1 r.2 ?_ ?_ k hk j hj
      · rw [← hr] at hcount hlen
        simp only [List.length_cons] at Hsuf
        omega
      · intro m hm
        rcases processNeighbors_getD w h (idx % w) (idx / w) neighborOffsets
          tm rest m with hsame | ⟨_, _, _, g4⟩
        · rw [← hr] at hsame
          rw [hsame] at hm
          rcases H5 m hm with hmem | hnone
          · rcases List.mem_cons.mp hmem with hmeq | hmr
            · subst hmeq
              right
              intro j2 hj2
              exact processNeighbors_post w h (m % w) (m / w) neighborOffsets
                tm rest j2 hj2
            · exact Or.inl (hr ▸ processNeighbors_stack_subset w h (idx % w) (idx / w)
                neighborOffsets tm rest hmr)
          · right
            intro j2 hj2
            rcases processNeighbors_getD_cases w h (idx % w) (idx / w) neighborOffsets
              tm rest j2 with hs2 | hs2
            · rw [← hr] at hs2
              rw [hs2]
              exact hnone j2 hj2
            · rw [← hr] at hs2
              omega
        · exact Or.inl (hr ▸ g4)


/-! ### Hysteresis: initial state and end-to-end lemmas -/

lemma tmInit_getD (nms : List ℚ) (low high : ℚ) (k : ℕ) :
    (nms.map fun v => if high ≤ v then 2 else if low ≤ v then 1 else 0).getD k 0
      = if k < nms.length then
          (if high ≤ nms.getD k 0 then 2 else if low ≤ nms.getD k 0 then 1 else 0)
        else 0 := by
  rcases Nat.lt_or_ge k nms.length with hlt | hge
  · rw [getD_map_lt nms _ k 0 0 hlt, if_pos hlt]
  · rw [if_neg (by omega), List.getD_eq_getElem?_getD,
      List.getElem?_eq_none (by simpa using hge)]
    rfl

lemma stackInit_mem (nms : List ℚ) (high : ℚ) (k : ℕ) :
    k ∈ ((List.range nms.length).filter fun i => high ≤ nms.getD i 0).reverse
      ↔ (k < nms.length ∧ high ≤ nms.getD k 0) := by
  simp [List.mem_reverse, List.mem_filter, List.mem_range]

lemma ReachesStrong_lt (nms : List ℚ) (w h : ℕ) (low high : ℚ) (k : ℕ)
    (hr : ReachesStrong nms w h low high k) : k < w * h := by
  induction hr with
  | seed i hi _ => exact hi
  | step i j _ hj _ _ => exact hj

lemma cannyHysteresis_sound (nms : List ℚ) (w h : ℕ) (low high : ℚ)
    (hlh : low ≤ high) (hlen : nms.length = w * h) (k : ℕ)
    (hk : (cannyHysteresis nms w h low high).getD k 0 = 2) :
    low ≤ nms.getD k 0 ∧ ReachesStrong nms w h low high k := by
  simp only [cannyHysteresis] at hk
  refine hysteresisLoopF_sound nms w h low high _ _ _ ?_ ?_ ?_ k hk
  · intro m hm
    rw [tmInit_getD] at hm
    split at hm
    · rename_i hmlt
      split at hm
      · rename_i hmhigh
        exact ⟨le_trans hlh hmhigh, ReachesStrong.seed m (hlen ▸ hmlt) hmhigh⟩
      · split at hm <;> omega
    · omega
  · intro m hm
    rw [tmInit_getD] at hm
    split at hm
    · split at hm
      · omega
      · split at hm
        · rename_i hmlow
          exact hmlow
        · omega
    · omega
  · intro m hm
    rw [stackInit_mem] at hm
    rw [tmInit_getD, if_pos hm.1, if_pos hm.2]
    exact ⟨rfl, hlen ▸ hm.1⟩

lemma cannyHysteresis_complete (nms : List ℚ) (w h : ℕ) (low high : ℚ)
    (hlh : low ≤ high) (hlen : nms.length = w * h) (k : ℕ)
    (hreach : ReachesStrong nms w h low high k) :
    (cannyHysteresis nms w h low high).getD k 0 = 2 := by
  induction hreach with
  | seed i hi hhigh =>
    simp only [cannyHysteresis]
    apply hysteresisLoopF_mono
    rw [tmInit_getD, if_pos (by omega), if_pos hhigh]
  | step i j hr hj hadj hlow ihstep =>
    rcases hysteresisLoopF_cases w h
      (((List.range nms.length).filter fun m => high ≤ nms.getD m 0).reverse.length
        + 2 * (nms.map fun v => if high ≤ v then 2 else if low ≤ v then 1 else 0).length + 1)
      (nms.map fun v => if high ≤ v then 2 else if low ≤ v then 1 else 0)
      ((List.range nms.length).filter fun m => high ≤ nms.getD m 0).reverse j
      with hcase | hcase
    · by_cases hjhigh : high ≤ nms.getD j 0
      · simp only [cannyHysteresis]
        apply hysteresisLoopF_mono
        rw [tmInit_getD, if_pos (by omega), if_pos hjhigh]
      · exfalso
        have hj1 : (cannyHysteresis nms w h low high).getD j 0 = 1 := by
          simp only [cannyHysteresis]
          rw [hcase, tmInit_getD, if_pos (by omega), if_neg hjhigh, if_pos hlow]
        have hmem : j ∈ neighborIdxList w h (i % w) (i / w) :=
          mem_neighborIdxList_of_chebIdxAdj w h i j
            (ReachesStrong_lt nms w h low high i hr) hj hadj
        have hexh := hysteresisLoopF_exhaust w h
          (((List.range nms.length).filter fun m => high ≤ nms.getD m 0).reverse.length
            + 2 * (nms.map fun v => if high ≤ v then 2 else if low ≤ v then 1 else 0).length + 1)
          (nms.map fun v => if high ≤ v then 2 else if low ≤ v then 1 else 0)
          ((List.range nms.length).filter fun m => high ≤ nms.getD m 0).reverse
          (by
            have := List.count_le_length
              (l := nms.map fun v => if high ≤ v then 2 else if low ≤ v then 1 else 0) (a := 1)
            omega)
          (by
            intro m hm
            left
            rw [tmInit_getD] at hm
            rw [stackInit_mem]
            split at hm
            · rename_i hmlt
              split at hm
              · rename_i hmhigh
                exact ⟨hmlt, hmhigh⟩
              · split at hm <;> omega
            · omega)
          i (by simpa only [cannyHysteresis] using ihstep) j hmem
        simp only [cannyHysteresis] at hj1
        exact hexh hj1
    · simp only [cannyHysteresis]
      exact hcase

/-! ### Field-level facts: borders and degenerate sizes -/

lemma cannyNms_length (magnitudes directions : List ℚ) (r2d : ℚ) (w h : ℕ) :
    (cannyNms magnitudes directions r2d w h).length = w * h := by
  simp [cannyNms]

lemma cannyNms_border_zero (magnitudes directions : List ℚ) (r2d : ℚ) (w h i : ℕ)
    (hborder : i % w = 0 ∨ i % w = w - 1 ∨ i / w = 0 ∨ i / w = h - 1) :
    (cannyNms magnitudes directions r2d w h).getD i 0 = 0 := by
  rw [cannyNms, getD_range_map]
  split
  · rw [if_neg (by omega)]
  · rfl

lemma cannyNms_small_zero (magnitudes directions : List ℚ) (r2d : ℚ) (w h i : ℕ)
    (hwh : w < 3 ∨ h < 3) :
    (cannyNms magnitudes directions r2d w h).getD i 0 = 0 := by
  rw [cannyNms, getD_range_map]
  split
  · rw [if_neg (by omega)]
  · rfl

lemma gaussianBlur_small_zero (data : List ℚ) (w h : ℕ) (hwh : w < 3 ∨ h < 3) :
    ∀ v ∈ gaussianBlur data w h, v = 0 := by
  intro v hv
  rw [gaussianBlur, List.mem_map] at hv
  obtain ⟨idx, _, rfl⟩ := hv
  rw [if_neg (by omega)]

/-- C2: for `0 ≤ low ≤ high`, the final hysteresis mask marks cell `i` STRONG
iff its thinned magnitude is ≥ `low` and it is 8-connected, through cells of
magnitude ≥ `low`, to a cell of magnitude ≥ `high`; weak cells not reachable
from a strong seed are discarded. -/
theorem hysteresis_strong_iff_reaches (nms : List ℚ) (w h : ℕ) (low high : ℚ)
    (h0 : 0 ≤ low) (hlh : low ≤ high) (hlen : nms.length = w * h)
    (i : ℕ) (hi : i < w * h) :
    (cannyHysteresis nms w h low high).getD i 0 = 2 ↔
      (low ≤ nms.getD i 0 ∧ ReachesStrong nms w h low high i) :=
  ⟨cannyHysteresis_sound nms w h low high hlh hlen i,
   fun hp => cannyHysteresis_complete nms w h low high hlh hlen i hp.2⟩

theorem hysteresis_strong_iff_reaches_witness :
    (cannyHysteresis [(10 : ℚ), 4, 4] 3 1 3 9).getD 2 0 = 2 ↔
      ((3 : ℚ) ≤ ([(10 : ℚ), 4, 4].getD 2 0)
        ∧ ReachesStrong [(10 : ℚ), 4, 4] 3 1 3 9 2) :=
  hysteresis_strong_iff_reaches [(10 : ℚ), 4, 4] 3 1 3 9 (by norm_num) (by norm_num)
    rfl 2 (by norm_num)

/-- C4 (amended): with `lowThreshold > highThreshold` the pipeline raises no
error and still produces a mask; hysteresis degenerates to the hard
threshold at `high`: no cell is ever WEAK, and a cell is STRONG iff its
thinned magnitude is ≥ `high`. -/
theorem low_gt_high_degenerates (nms : List ℚ) (w h : ℕ) (low high : ℚ)
    (hhl : high < low) (hlen : nms.length = w * h) :
    (∀ i, (cannyHysteresis nms w h low high).getD i 0 ≠ 1)
      ∧ ∀ i, i < w * h →
        ((cannyHysteresis nms w h low high).getD i 0 = 2 ↔ high ≤ nms.getD i 0) := by
  have hnw : ∀ k, ((nms.map fun v => if high ≤ v then 2 else if low ≤ v then 1 else 0).getD k 0) ≠ 1 := by
    intro k
    rw [tmInit_getD]
    split
    · split
      · omega
      · rename_i hh
        split
        · rename_i hl
          exact absurd (le_trans (le_of_lt hhl) hl) hh
        · omega
    · omega
  have hres : cannyHysteresis nms w h low high
      = nms.map fun v => if high ≤ v then 2 else if low ≤ v then 1 else 0 := by
    simp only [cannyHysteresis]
    exact hysteresisLoopF_noweak w h _ _ _ hnw
  constructor
  · intro i
    rw [hres]
    exact hnw i
  · intro i hi
    rw [hres, tmInit_getD, if_pos (by omega)]
    constructor
    · intro h2
      by_contra hh
      rw [if_neg hh] at h2
      split at h2 <;> omega
    · intro hh
      rw [if_pos hh]

theorem low_gt_high_degenerates_witness :
    ((cannyHysteresis [(3 : ℚ), 1] 2 1 5 2).getD 0 0 = 2 ↔ (2 : ℚ) ≤ ([(3 : ℚ), 1].getD 0 0))
      ∧ (cannyHysteresis [(3 : ℚ), 1] 2 1 5 2).getD 1 0 ≠ 1 :=
  ⟨(low_gt_high_degenerates [(3 : ℚ), 1] 2 1 5 2 (by norm_num) rfl).2 0 (by norm_num),
   (low_gt_high_degenerates [(3 : ℚ), 1] 2 1 5 2 (by norm_num) rfl).1 1⟩

/-! ### Edge output and pixel-scan helpers -/

lemma cannyEdges_red_ne (sq : ℚ → ℚ) (at2 : ℚ → ℚ → ℚ) (r2d : ℚ)
    (img : ImageData) (low high : ℚ) (k : ℕ)
    (htm : (cannyTraceMap sq at2 r2d img low high).getD k 0 ≠ 2) :
    (cannyEdgeDetection sq at2 r2d img low high).getD (k * 4) 0 ≠ 255 := by
  simp only [cannyEdgeDetection]
  rw [getD_range_map]
  rcases Nat.lt_or_ge (k * 4) img.data.length with hlt | hge
  · rw [if_pos hlt, show k * 4 / 4 = k from by omega,
      if_neg (show ¬ (k * 4 % 4 = 3) from by omega), if_neg htm]
    split <;> omega
  · rw [if_neg (by omega)]
    omega

lemma edgePixels_eq_nil (edgeData : List ℕ) (w h : ℕ)
    (hred : ∀ p : ℕ, edgeData.getD (p * 4) 0 ≠ 255) :
    edgePixels edgeData w h = [] := by
  rw [edgePixels, List.flatMap_eq_nil_iff]
  intro y _
  rw [List.filterMap_eq_nil_iff]
  intro x _
  rw [if_neg (hred (y * w + x))]

/-- C3 (amended): with strictly positive thresholds, no pixel in row 0, row
H−1, column 0 or column W−1 is ever classified STRONG — its NMS magnitude is
identically zero, so it is neither seeded STRONG nor WEAK, and promotion only
upgrades WEAK cells. -/
theorem border_never_strong (sq : ℚ → ℚ) (at2 : ℚ → ℚ → ℚ) (r2d : ℚ)
    (img : ImageData) (low high : ℚ) (hlow : 0 < low) (hhigh : 0 < high) (i : ℕ)
    (hborder : i % img.width = 0 ∨ i % img.width = img.width - 1
      ∨ i / img.width = 0 ∨ i / img.width = img.height - 1) :
    (cannyTraceMap sq at2 r2d img low high).getD i 0 ≠ 2 := by
  simp only [cannyTraceMap, cannyHysteresis]
  have hnms := cannyNms_border_zero
    (cannyMagnitudes sq (gaussianBlur ((toGrayscale img.data).map (Nat.cast : ℕ → ℚ))
      img.width img.height) img.width img.height)
    (cannyDirections at2 (gaussianBlur ((toGrayscale img.data).map (Nat.cast : ℕ → ℚ))
      img.width img.height) img.width img.height)
    r2d img.width img.height i hborder
  have htm0 : ((cannyNms
      (cannyMagnitudes sq (gaussianBlur ((toGrayscale img.data).map (Nat.cast : ℕ → ℚ))
        img.width img.height) img.width img.height)
      (cannyDirections at2 (gaussianBlur ((toGrayscale img.data).map (Nat.cast : ℕ → ℚ))
        img.width img.height) img.width img.height)
      r2d img.width img.height).map
        fun v => if high ≤ v then 2 else if low ≤ v then 1 else 0).getD i 0 = 0 := by
    rw [tmInit_getD]
    split
    · rw [hnms, if_neg (by linarith), if_neg (by linarith)]
    · rfl
  rw [hysteresisLoopF_zero _ _ _ _ _ _ htm0]
  omega

def zeroSq : ℚ → ℚ := fun _ => 0

def zeroAt2 : ℚ → ℚ → ℚ := fun _ _ => 0

/-- C3 counterexample: on a 2×2 all-black image with the non-negative
threshold pair `(0, 0)`, every pixel lies on the border, the NMS field is
identically zero (2×2 has no interior, so the abstracted `sqrt`/`atan2` are
never consulted), and `0 ≥ high` seeds all four border pixels STRONG —
pixel 0 (row 0, column 0) is classified STRONG. -/
theorem border_strong_at_zero_thresholds :
    (cannyTraceMap zeroSq zeroAt2 0 ⟨2, 2, List.replicate 16 0⟩ 0 0).getD 0 0 = 2 := by
  decide

theorem border_never_strong_witness :
    (cannyTraceMap zeroSq zeroAt2 0 ⟨2, 2, List.replicate 16 0⟩ 1 1).getD 0 0 ≠ 2 :=
  border_never_strong zeroSq zeroAt2 0 ⟨2, 2, List.replicate 16 0⟩ 1 1
    (by norm_num) (by norm_num) 0 (Or.inl (by norm_num))

/-- C6 (amended): for `W < 3` or `H < 3` and thresholds `0 ≤ low`,
`0 < high`, the pipeline raises no error (it is total), the blurred
intermediate field is all zeros, and the resulting path set is empty. -/
theorem small_image_empty (sq : ℚ → ℚ) (at2 : ℚ → ℚ → ℚ) (r2d : ℚ)
    (img : ImageData) (low high : ℚ) (s : ℚ) (m : ℕ)
    (hwh : img.width < 3 ∨ img.height < 3) (hl : 0 ≤ low) (hh : 0 < high) :
    (∀ v ∈ gaussianBlur ((toGrayscale img.data).map (Nat.cast : ℕ → ℚ))
        img.width img.height, v = 0)
      ∧ vectoriseEdges (cannyEdgeDetection sq at2 r2d img low high)
          img.width img.height s m = [] := by
  refine ⟨gaussianBlur_small_zero _ _ _ hwh, ?_⟩
  have htm : ∀ k, (cannyTraceMap sq at2 r2d img low high).getD k 0 ≠ 2 := by
    intro k
    simp only [cannyTraceMap, cannyHysteresis]
    have hnms : ∀ i, (cannyNms
        (cannyMagnitudes sq (gaussianBlur ((toGrayscale img.data).map (Nat.cast : ℕ → ℚ))
          img.width img.height) img.width img.height)
        (cannyDirections at2 (gaussianBlur ((toGrayscale img.data).map (Nat.cast : ℕ → ℚ))
          img.width img.height) img.width img.height)
        r2d img.width img.height).getD i 0 = 0 :=
      fun i => cannyNms_small_zero _ _ _ _ _ _ hwh
    have hstack : ((List.range (cannyNms
        (cannyMagnitudes sq (gaussianBlur ((toGrayscale img.data).map (Nat.cast : ℕ → ℚ))
          img.width img.height) img.width img.height)
        (cannyDirections at2 (gaussianBlur ((toGrayscale img.data).map (Nat.cast : ℕ → ℚ))
          img.width img.height) img.width img.height)
        r2d img.width img.height).length).filter fun i => high ≤ (cannyNms
        (cannyMagnitudes sq (gaussianBlur ((toGrayscale img.data).map (Nat.cast : ℕ → ℚ))
          img.width img.height) img.width img.height)
        (cannyDirections at2 (gaussianBlur ((toGrayscale img.data).map (Nat.cast : ℕ → ℚ))
          img.width img.height) img.width img.height)
        r2d img.width img.height).getD i 0) = [] := by
      rw [List.filter_eq_nil_iff]
      intro a _
      rw [hnms a]
      simp only [decide_eq_true_eq]
      exact not_le.mpr hh
    rw [hstack, List.reverse_nil]
    simp only [hysteresisLoopF]
    rw [tmInit_getD]
    split
    · rw [hnms, if_neg (not_le.mpr hh)]
      split <;> omega
    · omega
  have hred : ∀ p : ℕ,
      (cannyEdgeDetection sq at2 r2d img low high).getD (p * 4) 0 ≠ 255 :=
    fun p => cannyEdges_red_ne sq at2 r2d img low high p (htm p)
  have hpix : edgePixels (cannyEdgeDetection sq at2 r2d img low high)
      img.width img.height = [] :=
    edgePixels_eq_nil _ _ _ hred
  rw [vectoriseEdges, rawPaths, hpix]
  rfl

/-- C6 counterexample: a 2×11 all-black image (`W = 2 < 3`) with the
non-negative threshold pair `(0, 0)` and the source defaults
`simplification = 1`, `minPathLength = 20`: every NMS value is `0 ≥ high`,
so all 22 pixels become STRONG edges and the greedy walk traces a single
22-point path, which survives the length filter — the PathSet is not
empty. -/
theorem small_image_not_empty_at_zero_thresholds :
    vectoriseEdges (cannyEdgeDetection zeroSq zeroAt2 0 ⟨2, 11, List.replicate 88 0⟩ 0 0)
      2 11 1 20 ≠ [] := by
  decide

theorem small_image_empty_witness :
    vectoriseEdges (cannyEdgeDetection zeroSq zeroAt2 0 ⟨2, 11, List.replicate 88 0⟩ 0 1)
      2 11 1 20 = [] :=
  (small_image_empty zeroSq zeroAt2 0 ⟨2, 11, List.replicate 88 0⟩ 0 1 1 20
    (Or.inl (by norm_num)) (by norm_num) (by norm_num)).2

/-- C4 counterexample: with `lowThreshold = 5 > 1 = highThreshold` the
pipeline does not fail with any error — on a 1×1 image it runs to completion
and returns a concrete RGBA result (the code contains no threshold
validation at all). -/
theorem low_gt_high_produces_result :
    cannyEdgeDetection zeroSq zeroAt2 0 ⟨1, 1, [7, 7, 7, 255]⟩ 5 1 = [0, 0, 0, 255] := by
  decide

/-! ### Invariants of the greedy walk -/

lemma head?_append_left {α : Type} (l₁ l₂ : List α) (hl : l₁ ≠ []) :
    (l₁ ++ l₂).head? = l₁.head? := by
  cases l₁ with
  | nil => exact absurd rfl hl
  | cons a t => rfl

lemma getD_concat_length {α : Type} (l : List α) (a : α) (d : α) :
    (l ++ [a]).getD l.length d = a := by
  rw [List.getD_eq_getElem?_getD, List.getElem?_append_right (le_refl _)]
  simp

lemma findUnvisitedNeighbor_spec (e : List ℕ) (w h : ℕ) (visited : List Point)
    (curr npt : Point) (offs : List (Int × Int))
    (hfind : findUnvisitedNeighbor e w h visited curr offs = some npt) :
    npt ∉ visited ∧ ∃ o ∈ offs, npt = ⟨curr.x + o.2, curr.y + o.1⟩ := by
  induction offs with
  | nil => exact absurd hfind (by simp [findUnvisitedNeighbor])
  | cons o rest ih =>
    obtain ⟨dy, dx⟩ := o
    simp only [findUnvisitedNeighbor] at hfind
    split at hfind
    · rename_i hcond
      obtain rfl : npt = ⟨curr.x + dx, curr.y + dy⟩ :=
        ((Option.some.injEq _ _).mp hfind).symm
      exact ⟨hcond.2.2.2.2.1, ⟨(dy, dx), by simp, rfl⟩⟩
    · obtain ⟨hnv, o2, ho2, hpt⟩ := ih hfind
      exact ⟨hnv, o2, List.mem_cons_of_mem _ ho2, hpt⟩

lemma findUnvisitedNeighbor_cheb (e : List ℕ) (w h : ℕ) (visited : List Point)
    (curr npt : Point)
    (hfind : findUnvisitedNeighbor e w h visited curr neighborOffsets = some npt) :
    npt ∉ visited ∧ chebDist curr npt = 1 := by
  obtain ⟨hnv, ⟨dy, dx⟩, hmem, hpt⟩ :=
    findUnvisitedNeighbor_spec e w h visited curr npt neighborOffsets hfind
  refine ⟨hnv, ?_⟩
  have hoc : max dx.natAbs dy.natAbs = 1 := offset_cheb dy dx hmem
  subst hpt
  simp only [chebDist]
  omega

lemma chainToEarlier_singleton (p : Point) : ChainToEarlier [p] := by
  intro k hk
  simp at hk

lemma chainToEarlier_append (path : List Point) (q a : Point)
    (hch : ChainToEarlier path) (hq : q ∈ path) (hadj : chebDist q a = 1) :
    ChainToEarlier (path ++ [a]) := by
  intro k hk
  simp only [List.length_append, List.length_singleton] at hk
  rcases Nat.lt_or_ge (k + 1) path.length with hlt | hge
  · obtain ⟨j, hj, hcheb⟩ := hch k hlt
    refine ⟨j, hj, ?_⟩
    rw [getD_append_left _ _ _ _ (by omega), getD_append_left _ _ _ _ hlt]
    exact hcheb
  · have hkeq : k + 1 = path.length := by omega
    obtain ⟨jq, hjq, hjqe⟩ := List.getElem_of_mem hq
    refine ⟨jq, by omega, ?_⟩
    rw [getD_append_left _ _ _ _ (by omega), hkeq, getD_concat_length]
    have hgd : path.getD jq ⟨0, 0⟩ = q := by
      rw [List.getD_eq_getElem?_getD, List.getElem?_eq_getElem hjq]
      exact hjqe
    rw [hgd]
    exact hadj

lemma walkLoopF_spec (e : List ℕ) (w h : ℕ) (fuel : ℕ) :
    ∀ visited path stack : List Point,
    (∀ q ∈ stack, q ∈ path) → (∀ q ∈ path, q ∈ visited) → path.Nodup →
    ChainToEarlier path →
    (∀ q ∈ (walkLoopF e w h fuel visited path stack).2,
        q ∈ (walkLoopF e w h fuel visited path stack).1)
      ∧ (walkLoopF e w h fuel visited path stack).2.Nodup
      ∧ ChainToEarlier (walkLoopF e w h fuel visited path stack).2
      ∧ (∀ q ∈ visited, q ∈ (walkLoopF e w h fuel visited path stack).1)
      ∧ (∀ q ∈ (walkLoopF e w h fuel visited path stack).2,
          q ∈ path ∨ q ∉ visited) := by
  induction fuel with
  | zero =>
    intro visited path stack hsub hvp hnd hch
    cases stack <;>
      exact ⟨hvp, hnd, hch, fun q hq => hq, fun q hq => Or.inl hq⟩
  | succ n ih =>
    intro visited path stack hsub hvp hnd hch
    cases stack with
    | nil => exact ⟨hvp, hnd, hch, fun q hq => hq, fun q hq => Or.inl hq⟩
    | cons curr rest =>
      simp only [walkLoopF]
      cases hfind : findUnvisitedNeighbor e w h visited curr neighborOffsets with
      | some npt =>
        obtain ⟨hnv, hcheb⟩ := findUnvisitedNeighbor_cheb e w h visited curr npt hfind
        have hcurr : curr ∈ path := hsub curr (List.mem_cons_self curr rest)
        have hnp : npt ∉ path := fun hc => hnv (hvp npt hc)
        have hyp1 : ∀ q ∈ npt :: curr :: rest, q ∈ path ++ [npt] := by
          intro q hq
          rcases List.mem_cons.mp hq with rfl | hq2
          · simp
          · exact List.mem_append_left _ (hsub q hq2)
        have hyp2 : ∀ q ∈ path ++ [npt], q ∈ npt :: visited := by
          intro q hq
          rcases List.mem_append.mp hq with hq2 | hq2
          · exact List.mem_cons_of_mem _ (hvp q hq2)
          · simp only [List.mem_singleton] at hq2
            subst hq2
            exact List.mem_cons_self _ _
        have hyp3 : (path ++ [npt]).Nodup := by
          rw [List.nodup_append]
          exact ⟨hnd, List.nodup_singleton npt, by simpa using hnp⟩
        have hyp4 : ChainToEarlier (path ++ [npt]) :=
          chainToEarlier_append path curr npt hch hcurr hcheb
        obtain ⟨c1, c2, c3, c4, c5⟩ :=
          ih (npt :: visited) (path ++ [npt]) (npt :: curr :: rest) hyp1 hyp2 hyp3 hyp4
        refine ⟨c1, c2, c3, ?_, ?_⟩
        · intro q hq
          exact c4 q (List.mem_cons_of_mem _ hq)
        · intro q hq
          rcases c5 q hq with hq2 | hq2
          · rcases List.mem_append.mp hq2 with hq3 | hq3
            · exact Or.inl hq3
            · simp only [List.mem_singleton] at hq3
              subst hq3
              exact Or.inr hnv
          · exact Or.inr fun hc => hq2 (List.mem_cons_of_mem _ hc)
      | none =>
        exact ih visited path rest (fun q hq => hsub q (List.mem_cons_of_mem _ hq))
          hvp hnd hch

/-! ### Invariants of the outer trace loop -/

lemma traceLoop_length (e : List ℕ) (w h m : ℕ) :
    ∀ (pixels visited : List Point) (acc : List (List Point)),
    (∀ p ∈ acc, m < p.length) →
    ∀ p ∈ traceLoop e w h m pixels visited acc, m < p.length := by
  intro pixels
  induction pixels with
  | nil =>
    intro visited acc hacc p hp
    exact hacc p hp
  | cons px rest ih =>
    intro visited acc hacc p hp
    simp only [traceLoop] at hp
    split at hp
    · exact ih visited acc hacc p hp
    · refine ih _ _ ?_ p hp
      intro q hq
      split at hq
      · rcases List.mem_append.mp hq with hq2 | hq2
        · exact hacc q hq2
        · simp only [List.mem_singleton] at hq2
          subst hq2
          assumption
      · exact hacc q hq

lemma traceLoop_chain (e : List ℕ) (w h m : ℕ) :
    ∀ (pixels visited : List Point) (acc : List (List Point)),
    (∀ p ∈ acc, ChainToEarlier p) →
    ∀ p ∈ traceLoop e w h m pixels visited acc, ChainToEarlier p := by
  intro pixels
  induction pixels with
  | nil =>
    intro visited acc hacc p hp
    exact hacc p hp
  | cons px rest ih =>
    intro visited acc hacc p hp
    simp only [traceLoop] at hp
    split at hp
    · exact ih visited acc hacc p hp
    · refine ih _ _ ?_ p hp
      intro q hq
      have hspec := walkLoopF_spec e w h (2 * (w * h) + 1) (px :: visited) [px] [px]
        (by intro a ha; exact ha)
        (by intro a ha
            rw [List.mem_singleton] at ha
            subst ha
            exact List.mem_cons_self _ _)
        (List.nodup_singleton px) (chainToEarlier_singleton px)
      split at hq
      · rcases List.mem_append.mp hq with hq2 | hq2
        · exact hacc q hq2
        · simp only [List.mem_singleton] at hq2
          subst hq2
          exact hspec.2.2.1
      · exact hacc q hq

lemma traceLoop_disjoint (e : List ℕ) (w h m : ℕ) :
    ∀ (pixels visited : List Point) (acc : List (List Point)),
    (∀ p ∈ acc, ∀ q ∈ p, q ∈ visited) →
    (∀ p ∈ acc, p.Nodup) →
    List.Pairwise Disj acc →
    List.Pairwise Disj (traceLoop e w h m pixels visited acc)
      ∧ ∀ p ∈ traceLoop e w h m pixels visited acc, p.Nodup := by
  intro pixels
  induction pixels with
  | nil =>
    intro visited acc h1 h2 h3
    exact ⟨h3, h2⟩
  | cons px rest ih =>
    intro visited acc h1 h2 h3
    simp only [traceLoop]
    split
    · exact ih visited acc h1 h2 h3
    · rename_i hpx
      have hspec := walkLoopF_spec e w h (2 * (w * h) + 1) (px :: visited) [px] [px]
        (by intro a ha; exact ha)
        (by intro a ha
            rw [List.mem_singleton] at ha
            subst ha
            exact List.mem_cons_self _ _)
        (List.nodup_singleton px) (chainToEarlier_singleton px)
      obtain ⟨c1, c2, _, c4, c5⟩ := hspec
      have hfresh : ∀ q ∈ (walkLoopF e w h (2 * (w * h) + 1)
          (px :: visited) [px] [px]).2, q ∉ visited := by
        intro q hq
        rcases c5 q hq with hq2 | hq2
        · simp only [List.mem_singleton] at hq2
          subst hq2
          exact hpx
        · exact fun hc => hq2 (List.mem_cons_of_mem _ hc)
      refine ih _ _ ?_ ?_ ?_
      · intro p hp q hq
        split at hp
        · rcases List.mem_append.mp hp with hp2 | hp2
          · exact c4 q (List.mem_cons_of_mem _ (h1 p hp2 q hq))
          · simp only [List.mem_singleton] at hp2
            subst hp2
            exact c1 q hq
        · exact c4 q (List.mem_cons_of_mem _ (h1 p hp q hq))
      · intro p hp
        split at hp
        · rcases List.mem_append.mp hp with hp2 | hp2
          · exact h2 p hp2
          · simp only [List.mem_singleton] at hp2
            subst hp2
            exact c2
        · exact h2 p hp
      · split
        · rw [List.pairwise_append]
          refine ⟨h3, List.pairwise_singleton _ _, ?_⟩
          intro a ha b hb
          simp only [List.mem_singleton] at hb
          subst hb
          intro q hqa hqb
          exact hfresh q hqb (h1 a ha q hqa)
        · exact h3

/-- C1 (amended): in every raw path produced by the greedy walk, every point
after the first is an 8-connected neighbor (Chebyshev distance exactly 1) of
some earlier point of the same path — the point it was discovered from.
(Consecutive points need not be neighbors: after backtracking from a dead
end, the next appended point is adjacent to the stack top, not to the
previously appended point.) -/
theorem raw_path_chain_to_earlier (e : List ℕ) (w h m : ℕ) :
    ∀ path ∈ rawPaths e w h m, ChainToEarlier path := by
  intro path hp
  exact traceLoop_chain e w h m (edgePixels e w h) [] [] (by simp) path hp

/-- C8: every raw traced path retained by the vectorizer is strictly longer
than `minPathLength`; completed walks of length ≤ `minPathLength` are
dropped. -/
theorem raw_path_length_filter (e : List ℕ) (w h m : ℕ) :
    ∀ path ∈ rawPaths e w h m, m < path.length := by
  intro path hp
  exact traceLoop_length e w h m (edgePixels e w h) [] [] (by simp) path hp

/-! ### Decimation and simplification -/

lemma decimate_index (s len k : ℕ) (hs : 0 < s) :
    k < (len + s - 1) / s ↔ k * s < len := by
  rw [Nat.lt_iff_add_one_le, Nat.le_div_iff_mul_le hs]
  have hexp : (k + 1) * s = k * s + s := by ring
  omega

lemma getD_eq_of_lt {α : Type} (l : List α) (i : ℕ) (d : α) (hi : i < l.length) :
    l.getD i d = l.get ⟨i, hi⟩ := by
  rw [List.getD_eq_getElem?_getD, List.getElem?_eq_getElem hi]
  rfl

lemma getD_mem {α : Type} (l : List α) (i : ℕ) (d : α) (hi : i < l.length) :
    l.getD i d ∈ l := by
  rw [getD_eq_of_lt l i d hi]
  exact List.get_mem l _ _

lemma nodup_getD_inj (l : List Point) (hnd : l.Nodup) (i j : ℕ)
    (hi : i < l.length) (hj : j < l.length)
    (he : l.getD i ⟨0, 0⟩ = l.getD j ⟨0, 0⟩) : i = j := by
  rw [getD_eq_of_lt l _ _ hi, getD_eq_of_lt l _ _ hj] at he
  simpa using List.Nodup.getElem_inj_iff hnd |>.mp (by simpa using he)

lemma decimate_mem (path : List Point) (s : ℕ) (hs : 0 < s) :
    ∀ q ∈ decimate path s, q ∈ path := by
  intro q hq
  rw [decimate, List.mem_map] at hq
  obtain ⟨k, hk, rfl⟩ := hq
  rw [List.mem_range, decimate_index _ _ _ hs] at hk
  exact getD_mem path _ _ hk

lemma decimate_head? (path : List Point) (s : ℕ) (hs : 0 < s)
    (hlen : 0 < path.length) :
    (decimate path s).head? = some (path.getD 0 ⟨0, 0⟩) := by
  have hcnt : 0 < (path.length + s - 1) / s := by
    rw [Nat.lt_iff_add_one_le, Nat.le_div_iff_mul_le hs]
    omega
  obtain ⟨c, hc⟩ := Nat.exists_eq_add_of_lt hcnt
  rw [decimate, hc]
  rw [show 0 + c + 1 = c + 1 by omega, List.range_succ_eq_map]
  simp

lemma decimate_getLast? (path : List Point) (s : ℕ) (hlen : 0 < path.length)
    (hs : 0 < s) :
    (decimate path s).getLast?
      = some (path.getD (((path.length + s - 1) / s - 1) * s) ⟨0, 0⟩) := by
  have hcnt : 0 < (path.length + s - 1) / s := by
    rw [Nat.lt_iff_add_one_le, Nat.le_div_iff_mul_le hs]
    omega
  obtain ⟨c, hc⟩ := Nat.exists_eq_add_of_lt hcnt
  rw [decimate, hc, show 0 + c + 1 = c + 1 by omega, List.range_succ, List.map_append]
  rw [show c + 1 - 1 = c by omega]
  simp

lemma decimate_nodup (path : List Point) (s : ℕ) (hs : 0 < s)
    (hnd : path.Nodup) : (decimate path s).Nodup := by
  rw [decimate]
  refine List.Nodup.map_on ?_ (List.nodup_range _)
  intro k1 hk1 k2 hk2 he
  rw [List.mem_range, decimate_index _ _ _ hs] at hk1 hk2
  have := nodup_getD_inj path hnd (k1 * s) (k2 * s) hk1 hk2 he
  exact Nat.eq_of_mul_eq_mul_right hs this

lemma getLast?_eq_getD (path : List Point) (hlen : 0 < path.length) :
    path.getLast? = some (path.getD (path.length - 1) ⟨0, 0⟩) := by
  rw [List.getLast?_eq_getElem?, List.getElem?_eq_getElem (by omega),
    getD_eq_of_lt path _ _ (by omega)]
  rfl

lemma head?_eq_getD (path : List Point) (hlen : 0 < path.length) :
    path.head? = some (path.getD 0 ⟨0, 0⟩) := by
  rw [List.head?_eq_getElem?, List.getElem?_eq_getElem (by omega),
    getD_eq_of_lt path _ _ (by omega)]
  rfl

lemma simplifyPath_nil (s : ℕ) (path : List Point) (hlen : path.length < 2) :
    simplifyPath s path = [] := by
  rw [simplifyPath, if_pos hlen]

lemma simplifyPath_subset (s : ℕ) (path : List Point) (hs : 0 < s) :
    ∀ q ∈ simplifyPath s path, q ∈ path := by
  intro q hq
  rw [simplifyPath] at hq
  split at hq
  · simp at hq
  · rename_i hlen
    split at hq
    · exact decimate_mem path s hs q hq
    · rcases List.mem_append.mp hq with hq2 | hq2
      · exact decimate_mem path s hs q hq2
      · simp only [List.mem_singleton] at hq2
        subst hq2
        exact getD_mem path _ _ (by omega)

lemma simplifyPath_nodup (s : ℕ) (path : List Point) (hs : 0 < s)
    (hnd : path.Nodup) : (simplifyPath s path).Nodup := by
  rw [simplifyPath]
  split
  · exact List.nodup_nil
  · rename_i hlen
    split
    · exact decimate_nodup path s hs hnd
    · rename_i hne
      rw [List.nodup_append]
      refine ⟨decimate_nodup path s hs hnd, List.nodup_singleton _, ?_⟩
      simp only [List.disjoint_singleton]
      intro hmem
      rw [decimate, List.mem_map] at hmem
      obtain ⟨k, hk, hke⟩ := hmem
      rw [List.mem_range] at hk
      have hks : k * s < path.length := (decimate_index _ _ _ hs).mp hk
      have hkeq : k * s = path.length - 1 :=
        nodup_getD_inj path hnd _ _ hks (by omega) hke
      have hklast : k = (path.length + s - 1) / s - 1 := by
        have hexp1 : (k + 1) * s = k * s + s := by ring
        have hexp2 : (k + 2) * s = k * s + s + s := by ring
        have h1 : k + 1 ≤ (path.length + s - 1) / s := by
          rw [Nat.le_div_iff_mul_le hs]
          omega
        have h2 : ¬ (k + 2 ≤ (path.length + s - 1) / s) := by
          rw [Nat.le_div_iff_mul_le hs]
          omega
        omega
      apply hne
      rw [decimate_getLast? path s (by omega) hs, getLast?_eq_getD path (by omega),
        ← hklast, hke]

lemma simplifyPath_head? (s : ℕ) (path : List Point) (hs : 0 < s)
    (hlen : 2 ≤ path.length) :
    (simplifyPath s path).head? = path.head? := by
  rw [simplifyPath, if_neg (by omega)]
  have hd := decimate_head? path s hs (by omega)
  have hdne : decimate path s ≠ [] := by
    intro hc
    rw [hc] at hd
    simp at hd
  split
  · rw [hd, head?_eq_getD path (by omega)]
  · rw [head?_append_left _ _ hdne, hd, head?_eq_getD path (by omega)]

lemma simplifyPath_getLast? (s : ℕ) (path : List Point) (hs : 0 < s)
    (hlen : 2 ≤ path.length) :
    (simplifyPath s path).getLast? = path.getLast? := by
  rw [simplifyPath, if_neg (by omega)]
  split
  · assumption
  · rw [List.getLast?_concat, getLast?_eq_getD path (by omega)]

/-- C7: every path in the simplified output starts at the first point of its
raw traced path and ends at that raw path's last point. -/
theorem simplify_endpoints (e : List ℕ) (w h : ℕ) (s : ℚ) (m : ℕ) :
    ∀ sp ∈ vectoriseEdges e w h s m, ∃ raw ∈ rawPaths e w h m,
      sp.head? = raw.head? ∧ sp.getLast? = raw.getLast? := by
  intro sp hsp
  rw [vectoriseEdges, List.mem_filter] at hsp
  obtain ⟨hmem, hlen⟩ := hsp
  rw [List.mem_map] at hmem
  obtain ⟨raw, hraw, rfl⟩ := hmem
  simp only [decide_eq_true_eq] at hlen
  have hs : 0 < simplifyStride s := le_max_left 1 _
  have hraw2 : 2 ≤ raw.length := by
    by_contra hc
    rw [simplifyPath_nil _ _ (by omega)] at hlen
    simp at hlen
  exact ⟨raw, hraw, simplifyPath_head? _ raw hs hraw2,
    simplifyPath_getLast? _ raw hs hraw2⟩

theorem simplify_endpoints_witness :
    [(⟨0, 0⟩ : Point), ⟨2, 0⟩] ∈ vectoriseEdges
        [255, 0, 0, 0, 255, 0, 0, 0, 255, 0, 0, 0] 3 1 2 0
      ∧ ∃ raw ∈ rawPaths [255, 0, 0, 0, 255, 0, 0, 0, 255, 0, 0, 0] 3 1 0,
        ([(⟨0, 0⟩ : Point), ⟨2, 0⟩] : List Point).head? = raw.head?
          ∧ ([(⟨0, 0⟩ : Point), ⟨2, 0⟩] : List Point).getLast? = raw.getLast? :=
  ⟨by decide, simplify_endpoints [255, 0, 0, 0, 255, 0, 0, 0, 255, 0, 0, 0] 3 1 2 0
    [⟨0, 0⟩, ⟨2, 0⟩] (by decide)⟩

/-- C10: every path in the final output of `vectoriseEdges` has at least two
points; a raw path with fewer than two points (an isolated pixel) simplifies
to `[]` and never contributes an output path, regardless of
`minPathLength`. -/
theorem output_paths_length_ge_two (e : List ℕ) (w h : ℕ) (s : ℚ) (m : ℕ) :
    (∀ sp ∈ vectoriseEdges e w h s m, 2 ≤ sp.length)
      ∧ ∀ (stride : ℕ) (path : List Point), path.length < 2 →
        simplifyPath stride path = [] := by
  constructor
  · intro sp hsp
    rw [vectoriseEdges, List.mem_filter] at hsp
    have hl2 := hsp.2
    simp only [decide_eq_true_eq] at hl2
    omega
  · exact fun stride path hlen => simplifyPath_nil stride path hlen

theorem output_paths_length_ge_two_witness :
    [(⟨0, 0⟩ : Point), ⟨1, 0⟩] ∈ vectoriseEdges [255, 0, 0, 0, 255, 0, 0, 0] 2 1 1 0
      ∧ 2 ≤ ([(⟨0, 0⟩ : Point), ⟨1, 0⟩] : List Point).length :=
  ⟨by decide, (output_paths_length_ge_two [255, 0, 0, 0, 255, 0, 0, 0] 2 1 1 0).1
    [⟨0, 0⟩, ⟨1, 0⟩] (by decide)⟩

/-- C9: no pixel coordinate appears more than once across the entire output
of `vectoriseEdges`: the output paths are pairwise disjoint as point sets
and no output path contains a repeated point. -/
theorem output_paths_disjoint (e : List ℕ) (w h : ℕ) (s : ℚ) (m : ℕ) :
    List.Pairwise Disj (vectoriseEdges e w h s m)
      ∧ ∀ p ∈ vectoriseEdges e w h s m, p.Nodup := by
  have hs : 0 < simplifyStride s := le_max_left 1 _
  obtain ⟨hpair, hnd⟩ := traceLoop_disjoint e w h m (edgePixels e w h) [] []
    (by simp) (by simp) List.Pairwise.nil
  constructor
  · rw [vectoriseEdges]
    refine List.Pairwise.sublist (List.filter_sublist _) ?_
    rw [List.pairwise_map]
    refine hpair.imp_of_mem ?_
    intro a b ha hb hdisj q hqa hqb
    exact hdisj q (simplifyPath_subset _ a hs q hqa) (simplifyPath_subset _ b hs q hqb)
  · intro p hp
    rw [vectoriseEdges, List.mem_filter, List.mem_map] at hp
    obtain ⟨⟨raw, hraw, rfl⟩, _⟩ := hp
    exact simplifyPath_nodup _ raw hs (hnd raw hraw)

theorem output_paths_disjoint_witness :
    [(⟨0, 0⟩ : Point), ⟨0, 1⟩] ∈ vectoriseEdges
        [255, 0, 0, 0, 255, 0, 0, 0] 1 2 1 0
      ∧ ([(⟨0, 0⟩ : Point), ⟨0, 1⟩] : List Point).Nodup :=
  ⟨by decide, (output_paths_disjoint [255, 0, 0, 0, 255, 0, 0, 0] 1 2 1 0).2
    [⟨0, 0⟩, ⟨0, 1⟩] (by decide)⟩

/-- Edge mask (4×3) with edge pixels `(0,0), (2,0), (3,0), (1,1), (0,2)`:
a fork at `(1,1)` whose first branch `(2,0), (3,0)` dead-ends, forcing the
walk to backtrack to `(1,1)` before taking the second branch `(0,2)`. -/
def forkMask : List ℕ :=
  [255, 0, 0, 0,   0, 0, 0, 0,   255, 0, 0, 0,   255, 0, 0, 0,
   0, 0, 0, 0,   255, 0, 0, 0,   0, 0, 0, 0,   0, 0, 0, 0,
   255, 0, 0, 0,   0, 0, 0, 0,   0, 0, 0, 0,   0, 0, 0, 0]

/-- C1 counterexample: on `forkMask` the single raw traced path is
`[(0,0), (1,1), (2,0), (3,0), (0,2)]`; after the walk dead-ends at `(3,0)`
it backtracks to `(1,1)` and appends `(0,2)`, so the consecutive pair
`(3,0), (0,2)` has Chebyshev distance 3 — consecutive points of a raw path
are not always 8-connected neighbors. -/
theorem raw_path_not_chebyshev_chain :
    ¬ ∀ path ∈ rawPaths forkMask 4 3 0, ∀ k < path.length - 1,
      chebDist (path.getD k ⟨0, 0⟩) (path.getD (k + 1) ⟨0, 0⟩) = 1 := by
  decide

theorem raw_path_chain_to_earlier_witness :
    [(⟨0, 0⟩ : Point), ⟨1, 1⟩] ∈ rawPaths
        [255, 0, 0, 0, 0, 0, 0, 0, 0, 0, 0, 0, 255, 0, 0, 0] 2 2 0
      ∧ ChainToEarlier [(⟨0, 0⟩ : Point), ⟨1, 1⟩] :=
  ⟨by decide, raw_path_chain_to_earlier
    [255, 0, 0, 0, 0, 0, 0, 0, 0, 0, 0, 0, 255, 0, 0, 0] 2 2 0
    [⟨0, 0⟩, ⟨1, 1⟩] (by decide)⟩

theorem raw_path_length_filter_witness :
    [(⟨0, 0⟩ : Point), ⟨1, 0⟩, ⟨2, 0⟩] ∈ rawPaths
        [255, 0, 0, 0, 255, 0, 0, 0, 255, 0, 0, 0] 3 1 2
      ∧ 2 < ([(⟨0, 0⟩ : Point), ⟨1, 0⟩, ⟨2, 0⟩] : List Point).length :=
  ⟨by decide, raw_path_length_filter
    [255, 0, 0, 0, 255, 0, 0, 0, 255, 0, 0, 0] 3 1 2
    [⟨0, 0⟩, ⟨1, 0⟩, ⟨2, 0⟩] (by decide)⟩

/-! ### Buffer padding congruence -/

lemma cell_lt (w h a b : ℕ) (ha : a < h) (hb : b < w) : a * w + b < w * h :=
  calc a * w + b < a * w + w := by omega
    _ = (a + 1) * w := by ring
    _ ≤ h * w := Nat.mul_le_mul_right w ha
    _ = w * h := Nat.mul_comm h w

lemma toGrayscale_length (data : List ℕ) :
    (toGrayscale data).length = data.length / 4 := by
  simp [toGrayscale]

lemma toGrayscale_append_agree (data extra : List ℕ) (j : ℕ)
    (hj : j < data.length / 4) :
    (toGrayscale (data ++ extra)).getD j 0 = (toGrayscale data).getD j 0 := by
  have hple : data.length ≤ (data ++ extra).length := by simp
  have hj2 : j < (data ++ extra).length / 4 :=
    lt_of_lt_of_le hj (Nat.div_le_div_right hple)
  have hidx : 4 * j + 4 ≤ data.length := by
    have := (Nat.le_div_iff_mul_le (by norm_num : 0 < 4)).mp hj
    omega
  rw [toGrayscale, toGrayscale, getD_range_map, getD_range_map,
    if_pos hj2, if_pos hj]
  rw [getD_append_left _ _ _ _ (by omega), getD_append_left _ _ _ _ (by omega),
    getD_append_left _ _ _ _ (by omega)]

lemma grayQ_agree (data extra : List ℕ) (w h : ℕ) (hdata : data.length = w * h * 4) :
    ∀ j < w * h,
      ((toGrayscale (data ++ extra)).map (Nat.cast : ℕ → ℚ)).getD j 0
        = ((toGrayscale data).map (Nat.cast : ℕ → ℚ)).getD j 0 := by
  intro j hj
  have hlen2 : (toGrayscale data).length = w * h := by
    rw [toGrayscale_length, hdata]
    omega
  have hlen1 : w * h ≤ (toGrayscale (data ++ extra)).length := by
    rw [toGrayscale_length]
    have hple : data.length ≤ (data ++ extra).length := by simp
    calc w * h = data.length / 4 := by omega
      _ ≤ (data ++ extra).length / 4 := Nat.div_le_div_right hple
  rw [getD_map_lt (toGrayscale (data ++ extra)) _ _ _ 0 (by omega),
    getD_map_lt (toGrayscale data) _ _ _ 0 (by omega)]
  rw [toGrayscale_append_agree data extra j (by omega)]

lemma gaussianBlur_agree (g₁ g₂ : List ℚ) (w h : ℕ)
    (hlen1 : w * h ≤ g₁.length) (hlen2 : w * h ≤ g₂.length)
    (hg : ∀ j < w * h, g₁.getD j 0 = g₂.getD j 0) :
    ∀ idx < w * h, (gaussianBlur g₁ w h).getD idx 0 = (gaussianBlur g₂ w h).getD idx 0 := by
  intro idx hidx
  rw [gaussianBlur, gaussianBlur, getD_range_map, getD_range_map,
    if_pos (show idx < g₁.length from by omega),
    if_pos (show idx < g₂.length from by omega)]
  by_cases hint : 1 ≤ idx / w ∧ idx / w < h - 1 ∧ 1 ≤ idx % w ∧ idx % w < w - 1
  · rw [if_pos hint, if_pos hint]
    obtain ⟨hy1, hy2, hx1, hx2⟩ := hint
    have hw : idx % w < w := Nat.mod_lt idx (by omega)
    have hh : idx / w < h := by omega
    rw [hg _ (cell_lt w h _ _ (by omega) (by omega)),
      hg _ (cell_lt w h _ _ (by omega) (by omega)),
      hg _ (cell_lt w h _ _ (by omega) (by omega)),
      hg _ (cell_lt w h _ _ (by omega) (by omega)),
      hg _ (cell_lt w h _ _ (by omega) (by omega)),
      hg _ (cell_lt w h _ _ (by omega) (by omega)),
      hg _ (cell_lt w h _ _ (by omega) (by omega)),
      hg _ (cell_lt w h _ _ (by omega) (by omega)),
      hg _ (cell_lt w h _ _ (by omega) (by omega))]
  · rw [if_neg hint, if_neg hint]

lemma sobelX_congr (b₁ b₂ : List ℚ) (w h x y : ℕ)
    (hb : ∀ j < w * h, b₁.getD j 0 = b₂.getD j 0)
    (hx1 : 1 ≤ x) (hx2 : x + 1 < w) (hy1 : 1 ≤ y) (hy2 : y + 1 < h) :
    sobelX b₁ w x y = sobelX b₂ w x y := by
  rw [sobelX, sobelX,
    hb _ (cell_lt w h _ _ (by omega) (by omega)),
    hb _ (cell_lt w h _ _ (by omega) (by omega)),
    hb _ (cell_lt w h _ _ (by omega) (by omega)),
    hb _ (cell_lt w h _ _ (by omega) (by omega)),
    hb _ (cell_lt w h _ _ (by omega) (by omega)),
    hb _ (cell_lt w h _ _ (by omega) (by omega))]

lemma sobelY_congr (b₁ b₂ : List ℚ) (w h x y : ℕ)
    (hb : ∀ j < w * h, b₁.getD j 0 = b₂.getD j 0)
    (hx1 : 1 ≤ x) (hx2 : x + 1 < w) (hy1 : 1 ≤ y) (hy2 : y + 1 < h) :
    sobelY b₁ w x y = sobelY b₂ w x y := by
  rw [sobelY, sobelY,
    hb _ (cell_lt w h _ _ (by omega) (by omega)),
    hb _ (cell_lt w h _ _ (by omega) (by omega)),
    hb _ (cell_lt w h _ _ (by omega) (by omega)),
    hb _ (cell_lt w h _ _ (by omega) (by omega)),
    hb _ (cell_lt w h _ _ (by omega) (by omega)),
    hb _ (cell_lt w h _ _ (by omega) (by omega))]

lemma cannyMagnitudes_congr (sq : ℚ → ℚ) (b₁ b₂ : List ℚ) (w h : ℕ)
    (hb : ∀ j < w * h, b₁.getD j 0 = b₂.getD j 0) :
    cannyMagnitudes sq b₁ w h = cannyMagnitudes sq b₂ w h := by
  rw [cannyMagnitudes, cannyMagnitudes]
  refine List.map_congr_left ?_
  intro idx hidx
  rw [List.mem_range] at hidx
  by_cases hint : 1 ≤ idx / w ∧ idx / w < h - 1 ∧ 1 ≤ idx % w ∧ idx % w < w - 1
  · simp only [if_pos hint]
    obtain ⟨hy1, hy2, hx1, hx2⟩ := hint
    rw [sobelX_congr b₁ b₂ w h _ _ hb hx1 (by omega) hy1 (by omega),
      sobelY_congr b₁ b₂ w h _ _ hb hx1 (by omega) hy1 (by omega)]
  · simp only [if_neg hint]

lemma cannyDirections_congr (at2 : ℚ → ℚ → ℚ) (b₁ b₂ : List ℚ) (w h : ℕ)
    (hb : ∀ j < w * h, b₁.getD j 0 = b₂.getD j 0) :
    cannyDirections at2 b₁ w h = cannyDirections at2 b₂ w h := by
  rw [cannyDirections, cannyDirections]
  refine List.map_congr_left ?_
  intro idx hidx
  rw [List.mem_range] at hidx
  by_cases hint : 1 ≤ idx / w ∧ idx / w < h - 1 ∧ 1 ≤ idx % w ∧ idx % w < w - 1
  · simp only [if_pos hint]
    obtain ⟨hy1, hy2, hx1, hx2⟩ := hint
    rw [sobelX_congr b₁ b₂ w h _ _ hb hx1 (by omega) hy1 (by omega),
      sobelY_congr b₁ b₂ w h _ _ hb hx1 (by omega) hy1 (by omega)]
  · simp only [if_neg hint]

lemma cannyTraceMap_padding (sq : ℚ → ℚ) (at2 : ℚ → ℚ → ℚ) (r2d : ℚ)
    (w h : ℕ) (data extra : List ℕ) (low high : ℚ)
    (hdata : data.length = w * h * 4) :
    cannyTraceMap sq at2 r2d ⟨w, h, data ++ extra⟩ low high
      = cannyTraceMap sq at2 r2d ⟨w, h, data⟩ low high := by
  simp only [cannyTraceMap]
  have hg := grayQ_agree data extra w h hdata
  have hlen1 : w * h ≤ ((toGrayscale (data ++ extra)).map (Nat.cast : ℕ → ℚ)).length := by
    rw [List.length_map, toGrayscale_length]
    have hple : data.length ≤ (data ++ extra).length := by simp
    calc w * h = data.length / 4 := by omega
      _ ≤ (data ++ extra).length / 4 := Nat.div_le_div_right hple
  have hlen2 : w * h ≤ ((toGrayscale data).map (Nat.cast : ℕ → ℚ)).length := by
    rw [List.length_map, toGrayscale_length, hdata]
    omega
  have hb := gaussianBlur_agree _ _ w h hlen1 hlen2 hg
  rw [cannyMagnitudes_congr sq _ _ w h hb, cannyDirections_congr at2 _ _ w h hb]

lemma cannyEdges_read_agree (sq : ℚ → ℚ) (at2 : ℚ → ℚ → ℚ) (r2d : ℚ)
    (w h : ℕ) (data extra : List ℕ) (low high : ℚ)
    (hdata : data.length = w * h * 4) :
    ∀ p < w * h,
      (cannyEdgeDetection sq at2 r2d ⟨w, h, data ++ extra⟩ low high).getD (p * 4) 0
        = (cannyEdgeDetection sq at2 r2d ⟨w, h, data⟩ low high).getD (p * 4) 0 := by
  intro p hp
  simp only [cannyEdgeDetection]
  rw [cannyTraceMap_padding sq at2 r2d w h data extra low high hdata]
  rw [getD_range_map, getD_range_map]
  have hlt : p * 4 < data.length := by omega
  rw [if_pos (show p * 4 < (⟨w, h, data ++ extra⟩ : ImageData).data.length from by
      simp only [List.length_append]
      omega),
    if_pos (show p * 4 < (⟨w, h, data⟩ : ImageData).data.length from hlt)]

lemma findUnvisitedNeighbor_congr (e₁ e₂ : List ℕ) (w h : ℕ)
    (hread : ∀ p < w * h, e₁.getD (p * 4) 0 = e₂.getD (p * 4) 0)
    (visited : List Point) (curr : Point) (offs : List (Int × Int)) :
    findUnvisitedNeighbor e₁ w h visited curr offs
      = findUnvisitedNeighbor e₂ w h visited curr offs := by
  induction offs with
  | nil => rfl
  | cons o rest ih =>
    obtain ⟨dy, dx⟩ := o
    simp only [findUnvisitedNeighbor]
    have hiff : (0 ≤ curr.x + dx ∧ curr.x + dx < (w : Int) ∧ 0 ≤ curr.y + dy
          ∧ curr.y + dy < (h : Int) ∧ (⟨curr.x + dx, curr.y + dy⟩ : Point) ∉ visited
          ∧ e₁.getD (((curr.y + dy).toNat * w + (curr.x + dx).toNat) * 4) 0 = 255)
        ↔ (0 ≤ curr.x + dx ∧ curr.x + dx < (w : Int) ∧ 0 ≤ curr.y + dy
          ∧ curr.y + dy < (h : Int) ∧ (⟨curr.x + dx, curr.y + dy⟩ : Point) ∉ visited
          ∧ e₂.getD (((curr.y + dy).toNat * w + (curr.x + dx).toNat) * 4) 0 = 255) := by
      constructor <;>
        · rintro ⟨h1, h2, h3, h4, h5, h6⟩
          refine ⟨h1, h2, h3, h4, h5, ?_⟩
          rw [← h6]
          have hcell : (curr.y + dy).toNat * w + (curr.x + dx).toNat < w * h :=
            cell_lt w h _ _ (by omega) (by omega)
          first
            | exact (hread _ hcell).symm
            | exact hread _ hcell
    rw [if_congr hiff rfl ih]

lemma walkLoopF_congr (e₁ e₂ : List ℕ) (w h : ℕ)
    (hread : ∀ p < w * h, e₁.getD (p * 4) 0 = e₂.getD (p * 4) 0) (fuel : ℕ) :
    ∀ visited path stack,
      walkLoopF e₁ w h fuel visited path stack = walkLoopF e₂ w h fuel visited path stack := by
  induction fuel with
  | zero =>
    intro visited path stack
    cases stack <;> rfl
  | succ n ih =>
    intro visited path stack
    cases stack with
    | nil => rfl
    | cons curr rest =>
      simp only [walkLoopF]
      rw [findUnvisitedNeighbor_congr e₁ e₂ w h hread visited curr neighborOffsets]
      cases findUnvisitedNeighbor e₂ w h visited curr neighborOffsets with
      | some npt => exact ih _ _ _
      | none => exact ih _ _ _

lemma traceLoop_congr (e₁ e₂ : List ℕ) (w h m : ℕ)
    (hread : ∀ p < w * h, e₁.getD (p * 4) 0 = e₂.getD (p * 4) 0) :
    ∀ pixels visited acc,
      traceLoop e₁ w h m pixels visited acc = traceLoop e₂ w h m pixels visited acc := by
  intro pixels
  induction pixels with
  | nil =>
    intro visited acc
    rfl
  | cons px rest ih =>
    intro visited acc
    simp only [traceLoop]
    rw [walkLoopF_congr e₁ e₂ w h hread (2 * (w * h) + 1) (px :: visited) [px] [px]]
    split
    · exact ih visited acc
    · exact ih _ _

lemma edgePixels_congr (e₁ e₂ : List ℕ) (w h : ℕ)
    (hread : ∀ p < w * h, e₁.getD (p * 4) 0 = e₂.getD (p * 4) 0) :
    edgePixels e₁ w h = edgePixels e₂ w h := by
  rw [edgePixels, edgePixels, List.flatMap_def, List.flatMap_def]
  refine congrArg List.flatten ?_
  refine List.map_congr_left ?_
  intro y hy
  rw [List.mem_range] at hy
  refine List.filterMap_congr ?_
  intro x hx
  rw [List.mem_range] at hx
  rw [hread (y * w + x) (cell_lt w h y x hy hx)]

/-- C5 (amended): the pipeline performs no buffer-length validation; on a
buffer longer than `W*H*4` (by whole RGBA quadruples, keeping the JS
`Uint8Array(data.length / 4)` allocation well-defined) it silently computes,
producing exactly the paths of the well-formed truncation — the extra bytes
are read by `toGrayscale` but never influence the interior convolutions, the
trace map, or the traced paths. -/
theorem padded_buffer_same_paths (sq : ℚ → ℚ) (at2 : ℚ → ℚ → ℚ) (r2d : ℚ)
    (w h : ℕ) (data extra : List ℕ) (low high s : ℚ) (m : ℕ)
    (hdata : data.length = w * h * 4) (hextra : 4 ∣ extra.length) :
    vectoriseEdges (cannyEdgeDetection sq at2 r2d ⟨w, h, data ++ extra⟩ low high) w h s m
      = vectoriseEdges (cannyEdgeDetection sq at2 r2d ⟨w, h, data⟩ low high) w h s m := by
  have hread := cannyEdges_read_agree sq at2 r2d w h data extra low high hdata
  rw [vectoriseEdges, vectoriseEdges, rawPaths, rawPaths,
    edgePixels_congr _ _ w h hread,
    traceLoop_congr _ _ w h m hread]

/-- C5 counterexample: a malformed buffer (8 bytes for a declared 1×1 image,
length 8 ≠ 1·1·4) raises no `InvalidInput`: the pipeline silently computes
and returns a concrete RGBA result. -/
theorem malformed_buffer_produces_result :
    cannyEdgeDetection zeroSq zeroAt2 0 ⟨1, 1, [0, 0, 0, 0, 0, 0, 0, 0]⟩ 1 2
      = [0, 0, 0, 255, 0, 0, 0, 0] := by
  decide

theorem padded_buffer_same_paths_witness :
    vectoriseEdges (cannyEdgeDetection zeroSq zeroAt2 0
        ⟨1, 1, [0, 0, 0, 0] ++ [9, 9, 9, 9]⟩ 1 2) 1 1 1 0
      = vectoriseEdges (cannyEdgeDetection zeroSq zeroAt2 0 ⟨1, 1, [0, 0, 0, 0]⟩ 1 2) 1 1 1 0 :=
  padded_buffer_same_paths zeroSq zeroAt2 0 1 1 [0, 0, 0, 0] [9, 9, 9, 9] 1 2 1 0
    (by decide) ⟨1, rfl⟩

end VectorTrace
